import Mathlib

/-!
# TenderAI extraction pipeline — verification development

Shallow embedding of `final_app.py`: the field-extraction regex heuristics
(`extract_fields`), the summarizer (`simple_summary`), the record builder
(`process_file`), the in-memory tender store with JSON snapshot persistence,
and the dashboard listing order.  Python regular expressions are modelled by
hand-rolled backtracking matchers that follow the semantics of `re.search`
(leftmost start position, alternatives in written order, greedy/lazy
quantifier preference).  Character classes (`\s`, `\d`) are modelled for the
ASCII range, which covers every string manipulated by the application.
-/

/-- Python `\s` character class (and `str.strip` whitespace), ASCII range. -/
def isPySpace (c : Char) : Bool :=
  c == ' ' || c == '\t' || c == '\n' || c == '\r' || c == '\x0b' || c == '\x0c'

/-- The character class `[\d,\.]` used for the numeric token of the amount regexes. -/
def isNumTokChar (c : Char) : Bool :=
  c.isDigit || c == ',' || c == '.'

/-- Single-character pattern match, optionally case-insensitive (`re.IGNORECASE`). -/
def charMatches (ci : Bool) (p c : Char) : Bool :=
  if ci then p.toLower == c.toLower else p == c

/-- Match a literal pattern at the head of the input.  Returns the source text
that matched (relevant under `re.IGNORECASE`, where the captured text keeps the
source's case) and the remaining input. -/
def matchLit (ci : Bool) : List Char → List Char → Option (List Char × List Char)
  | [], cs => some ([], cs)
  | _ :: _, [] => none
  | p :: ps, c :: cs =>
    if charMatches ci p c then
      (matchLit ci ps cs).map (fun pr => (c :: pr.1, pr.2))
    else
      none

/-- Candidate matches, in backtracking preference order, for the currency-marker
group `(₹|Rs\.?|INR)` at the head of the input.  `Rs\.?` is greedy, so the
variant that consumes the optional dot is preferred. -/
def markerCands (ci : Bool) (cs : List Char) : List (List Char × List Char) :=
  match matchLit ci ['₹'] cs with
  | some r => [r]
  | none =>
    match matchLit ci ['R', 's'] cs with
    | some mr =>
      (match mr.2 with
       | '.' :: rest2 => [(mr.1 ++ ['.'], rest2), (mr.1, mr.2)]
       | _ => [(mr.1, mr.2)])
    | none =>
      match matchLit ci ['I', 'N', 'R'] cs with
      | some r => [r]
      | none => []

/-- Match `(₹|Rs\.?|INR)\s*([\d,\.]+)` anchored at the head of the input,
returning the two captured groups.  `\s*` and `[\d,\.]+` are greedy; because
the two classes are disjoint, greediness here needs no further backtracking. -/
def matchMoneyAt (ci : Bool) (cs : List Char) : Option (String × String) :=
  (markerCands ci cs).findSome? (fun mr =>
    let afterWs := mr.2.dropWhile isPySpace
    let num := afterWs.takeWhile isNumTokChar
    if num.isEmpty then none else some (String.mk mr.1, String.mk num))

/-- `re.search(r'(₹|Rs\.?|INR)\s*([\d,\.]+)', text)`: try the anchored match at
every start position, leftmost first. -/
def searchMoney (ci : Bool) : List Char → Option (String × String)
  | [] => none
  | c :: rest =>
    match matchMoneyAt ci (c :: rest) with
    | some r => some r
    | none => searchMoney ci rest

/-- Match the deposit-indicator group `(?:EMD|Earnest Money Deposit)`
(case-insensitively) at the head of the input, returning the rest. -/
def matchEMDIndicator (cs : List Char) : Option (List Char) :=
  match matchLit true "EMD".data cs with
  | some mr => some mr.2
  | none =>
    match matchLit true "Earnest Money Deposit".data cs with
    | some mr => some mr.2
    | none => none

/-- The lazy `.*?` bridge of the EMD regex: try the money pattern at the current
position, then expand one (non-newline) character at a time.  `.` does not
match `'\n'`, so the money pattern must occur before the next newline. -/
def lazyMoneyFrom : List Char → Option (String × String)
  | [] =>
    match matchMoneyAt true [] with
    | some r => some r
    | none => none
  | c :: rest =>
    match matchMoneyAt true (c :: rest) with
    | some r => some r
    | none => if c == '\n' then none else lazyMoneyFrom rest

/-- `re.search(r'(?:EMD|Earnest Money Deposit).*?(₹|Rs\.?|INR)\s*([\d,\.]+)',
text, re.IGNORECASE)`: at each start position try the indicator, then bridge
lazily to the money pattern; on failure advance the start position. -/
def searchEMD : List Char → Option (String × String)
  | [] => none
  | c :: rest =>
    match matchEMDIndicator (c :: rest) with
    | some after =>
      match lazyMoneyFrom after with
      | some r => some r
      | none => searchEMD rest
    | none => searchEMD rest

/-- Take exactly `n` decimal digits from the head of the input. -/
def takeExactDigits : Nat → List Char → Option (List Char × List Char)
  | 0, cs => some ([], cs)
  | _ + 1, [] => none
  | n + 1, c :: cs =>
    if c.isDigit then
      (takeExactDigits n cs).map (fun pr => (c :: pr.1, pr.2))
    else
      none

/-- Match the separator class of the date token: slash or dash. -/
def matchSep : List Char → Option (Char × List Char)
  | [] => none
  | c :: cs => if c == '/' || c == '-' then some (c, cs) else none

/-- Match the date token (1-2 digits, slash-or-dash separator, 1-2 digits, separator, 2-4 digits) anchored at the head
of the input, with greedy backtracking on each counted repetition (try the
longer digit count first), returning the matched substring. -/
def matchDateAt (cs : List Char) : Option (List Char) :=
  [2, 1].findSome? (fun n1 =>
    (takeExactDigits n1 cs).bind (fun p1 =>
      (matchSep p1.2).bind (fun s1 =>
        [2, 1].findSome? (fun n2 =>
          (takeExactDigits n2 s1.2).bind (fun p2 =>
            (matchSep p2.2).bind (fun s2 =>
              [4, 3, 2].findSome? (fun n3 =>
                (takeExactDigits n3 s2.2).map (fun p3 =>
                  p1.1 ++ s1.1 :: (p2.1 ++ s2.1 :: p3.1)))))))))

/-- The generic date search of line 112: leftmost date-shaped
token. -/
def searchDate : List Char → Option String
  | [] => none
  | c :: rest =>
    match matchDateAt (c :: rest) with
    | some d => some (String.mk d)
    | none => searchDate rest

/-- Candidate rests, in backtracking preference order, after the
deadline-indicator group `(?:submission(?: date)?|due date|closing date)`
(case-insensitive) at the head of the input.  The optional ` date` of the
first alternative is greedy. -/
def dateIndicatorCands (cs : List Char) : List (List Char) :=
  match matchLit true "submission".data cs with
  | some mr =>
    (match matchLit true " date".data mr.2 with
     | some mr2 => [mr2.2, mr.2]
     | none => [mr.2])
  | none =>
    match matchLit true "due date".data cs with
    | some mr => [mr.2]
    | none =>
      match matchLit true "closing date".data cs with
      | some mr => [mr.2]
      | none => []

/-- After the indicator, `[^\d]*` greedily consumes everything up to the first
digit (it cannot cross a digit, so if the date token fails there the whole
anchored match fails). -/
def dateAfterIndicator (rest : List Char) : Option String :=
  (matchDateAt (rest.dropWhile (fun c => !c.isDigit))).map String.mk

/-- The targeted due-date search of line 108: the indicator, then non-digits, then the date token, case-insensitively, at the leftmost start position that matches. -/
def searchDueDate : List Char → Option String
  | [] => none
  | c :: rest =>
    match (dateIndicatorCands (c :: rest)).findSome? dateAfterIndicator with
    | some d => some d
    | none => searchDueDate rest

/-- The dictionary returned by `extract_fields`. -/
structure Fields where
  emd : String
  due_date : String
  eligibility : String
deriving Repr, DecidableEq

/-- `extract_fields` from `final_app.py` (lines 96–116): EMD via the targeted
case-insensitive regex, else the case-sensitive generic money regex, else
empty; due date via the targeted indicator regex, else the generic date regex,
else empty; eligibility is the first 200 characters plus `"..."` when the text
is longer than 200 characters.  Absence of a field is an empty string, never
an error: the function is total. -/
def extract_fields (text : String) : Fields :=
  let emd :=
    match searchEMD text.data with
    | some mn => mn.1 ++ " " ++ mn.2
    | none =>
      match searchMoney false text.data with
      | some mn => mn.1 ++ " " ++ mn.2
      | none => ""
  let due_date :=
    match searchDueDate text.data with
    | some d => d
    | none =>
      match searchDate text.data with
      | some d => d
      | none => ""
  let eligibility :=
    if 200 < text.data.length then String.mk (text.data.take 200) ++ "..." else text
  { emd := emd, due_date := due_date, eligibility := eligibility }

example :
    (extract_fields "EMD: Rs. 50,000. Submission date: 12/05/2024. Eligible bidders must be registered vendors...").emd
      = "Rs. 50,000." := by decide

example :
    (extract_fields "EMD: Rs. 50,000. Submission date: 12/05/2024. Eligible bidders must be registered vendors...").due_date
      = "12/05/2024" := by decide

example : (extract_fields "Total cost INR 75000").emd = "INR 75000" := by decide

example : (extract_fields "total cost inr 75000").emd = "" := by decide

example : (extract_fields "EMD: total cost inr 75000").emd = "inr 75000" := by decide

example : (extract_fields "no numbers here").due_date = "" := by decide

example : (extract_fields "pay 12/05/2024 now").due_date = "12/05/2024" := by decide

example : (extract_fields "Rs.X INR 5").emd = "Rs ." := by decide
example : (extract_fields "INRs 500").emd = "Rs 500" := by decide
example : (extract_fields "EMD\nRs 5 then Rs 7").emd = "Rs 5" := by decide
example : (extract_fields "due date 5 pm, 12/05/2024").due_date = "12/05/2024" := by decide
example : (extract_fields "x 123/4/24 submission").due_date = "23/4/24" := by decide
example : (extract_fields "submission 1234/5/67").due_date = "34/5/67" := by decide
example : (extract_fields "closing date: 3-4-567890").due_date = "3-4-5678" := by decide
example : (extract_fields "EMD rs. 12").emd = "rs. 12" := by decide
example : (extract_fields "emd  ₹  1,2.3x").emd = "₹ 1,2.3" := by decide
example : (extract_fields "Submission DATE\n\n nothing 9/9/99").due_date = "9/9/99" := by decide
example : (extract_fields "submissiondate 1/1/11").due_date = "1/1/11" := by decide

/-- `cs.dropWhile isPySpace`: consume a (possibly empty) whitespace run. -/
def dropSpacesList (cs : List Char) : List Char := cs.dropWhile isPySpace

/-- The sentence-terminator class `[.!?]` of the summarizer's split pattern. -/
def isTermChar (c : Char) : Bool := c == '.' || c == '!' || c == '?'

/-- Whether the head of the input is whitespace. -/
def headIsSpace : List Char → Bool
  | [] => false
  | c :: _ => isPySpace c

/-- Model of the splitter of line 92: a split point is
a maximal whitespace run (greedy) whose immediately preceding character is a
sentence terminator (the lookbehind).  The first argument is `true` while the
scanner is inside a delimiter's whitespace run; `prev` is the character
immediately before the current position (a dummy non-terminator at the
start), `acc` the current piece reversed. -/
def reSplitGo : Bool → Char → List Char → List Char → List String
  | _, _, acc, [] => [String.mk acc.reverse]
  | true, prev, acc, c :: rest =>
    if isPySpace c then
      reSplitGo true prev acc rest
    else
      reSplitGo false c (c :: acc) rest
  | false, prev, acc, c :: rest =>
    if isTermChar prev && isPySpace c then
      String.mk acc.reverse :: reSplitGo true ' ' [] rest
    else
      reSplitGo false c (c :: acc) rest

/-- The sentence list of line 92 applied to a string. -/
def pySplitTerm (s : String) : List String := reSplitGo false ' ' [] s.data

/-- Python `str.strip()` (ASCII whitespace). -/
def pyStrip (s : String) : String :=
  String.mk (((s.data.dropWhile isPySpace).reverse.dropWhile isPySpace).reverse)

/-- `simple_summary` from `final_app.py` (lines 90-93): strip, split into
sentences at terminator-then-whitespace boundaries, join the first three
sentences with a single space. -/
def simple_summary (text : String) : String :=
  String.intercalate " " ((pySplitTerm (pyStrip text)).take 3)

/-- Spec-side sentence splitter, following the spec's words: sentences are
separated at boundaries where one of `.`, `!`, `?` is followed by whitespace;
the whitespace run is the separator.  Stated with a lookahead (a terminator
whose successor is whitespace ends the sentence), to be compared with the
code-derived lookbehind splitter `reSplitGo`. -/
def specSplitGo : Bool → List Char → List Char → List String
  | _, acc, [] => [String.mk acc.reverse]
  | true, acc, c :: rest =>
    if isPySpace c then
      specSplitGo true acc rest
    else if isTermChar c && headIsSpace rest then
      String.mk (c :: acc).reverse :: specSplitGo true [] rest
    else
      specSplitGo false (c :: acc) rest
  | false, acc, c :: rest =>
    if isTermChar c && headIsSpace rest then
      String.mk (c :: acc).reverse :: specSplitGo true [] rest
    else
      specSplitGo false (c :: acc) rest

/-- Spec-side summarizer: trim, split per the spec's boundary description,
join the first three sentences with a single space. -/
def summarizeSpec (text : String) : String :=
  String.intercalate " " ((specSplitGo false [] (pyStrip text).data).take 3)

example : simple_summary "A b. C d! E f? G h." = "A b. C d! E f?" := by decide
example : simple_summary "  Hello.  World.  " = "Hello. World." := by decide
example : simple_summary "One" = "One" := by decide
example : simple_summary "" = "" := by decide
example : simple_summary "A.B. C" = "A.B. C" := by decide
example : simple_summary "Hi!! Next one" = "Hi!! Next one" := by decide
example : simple_summary "a . b" = "a . b" := by decide
example : simple_summary "x.\n\ny. z. w. v." = "x. y. z." := by decide

/-- The tender record assembled by `process_file` (lines 141-152). -/
structure Tender where
  id : String
  filename : String
  path : String
  text : String
  table_rows : List (List String)
  summary : String
  emd : String
  due_date : String
  eligibility : String
  uploaded_at : String
deriving Repr, DecidableEq

/-- Python `str.split('.')`: split at every dot, keeping empty pieces. -/
def splitDotAux : List Char → List Char → List String
  | acc, [] => [String.mk acc.reverse]
  | acc, c :: rest =>
    if c == '.' then String.mk acc.reverse :: splitDotAux [] rest
    else splitDotAux (c :: acc) rest

/-- `filename.lower().split('.')[-1]` (line 126); `str.lower` modelled on the
ASCII range.  `split('.')` never returns an empty list, so the last element
always exists. -/
def pyExt (filename : String) : String :=
  (splitDotAux [] (filename.data.map Char.toLower)).getLastD ""

/-- The text produced by the extension dispatch of lines 129-132. -/
def extTextOf (ext pdfText docxText : String) : String :=
  if ext = "pdf" then pdfText else if ext = "docx" then docxText else ""

/-- The table rows produced by the extension dispatch of lines 133-134. -/
def extRowsOf (ext : String) (xlsxRows : List (List String)) : List (List String) :=
  if ext = "xlsx" ∨ ext = "xls" then xlsxRows else []

/-- Line 137: flatten the first 5 rows, cells comma-joined, rows
newline-joined. -/
def flattenRows (rows : List (List String)) : String :=
  String.intercalate "\n" ((rows.take 5).map (String.intercalate ", "))

/-- The all-empty field dictionary used when the text is empty (line 140). -/
def defaultFields : Fields := { emd := "", due_date := "", eligibility := "" }

/-- The pure core of `process_file` (lines 119-155).  The external effects are
parameters: `file_id` models `uuid.uuid4()`, `uploaded_at` models
`datetime.now().isoformat()`, and `pdfText`, `docxText`, `xlsxRows` model what
the respective format extractor returns for the saved file (each extractor
degrades to an empty result on failure, so these cover every outcome).  The
store insertion and snapshot save of lines 153-154 are modelled separately by
`putTender` and `save_tenders`. -/
def process_file (file_id filename uploaded_at : String)
    (pdfText docxText : String) (xlsxRows : List (List String)) : Tender :=
  let save_path := "uploads/" ++ (file_id ++ ("_" ++ filename))
  let ext := pyExt filename
  let text0 := extTextOf ext pdfText docxText
  let table_rows := extRowsOf ext xlsxRows
  let text := if text0 = "" ∧ table_rows ≠ [] then flattenRows table_rows else text0
  let summary := if text ≠ "" then simple_summary text else ""
  let fields := if text ≠ "" then extract_fields text else defaultFields
  { id := file_id, filename := filename, path := save_path, text := text,
    table_rows := table_rows, summary := summary, emd := fields.emd,
    due_date := fields.due_date, eligibility := fields.eligibility,
    uploaded_at := uploaded_at }

/-- Python dict assignment `tenders[file_id] = tender` (line 153): overwrite in
place when the key is present (a dict keeps the key's original position), else
append in insertion order. -/
def putTender : List (String × Tender) → String → Tender → List (String × Tender)
  | [], k, t => [(k, t)]
  | (k0, t0) :: rest, k, t =>
    if k0 = k then (k0, t) :: rest else (k0, t0) :: putTender rest k t

/-- `tenders.get(tid)` (lines 395, 424): lookup by identifier. -/
def getTender : List (String × Tender) → String → Option Tender
  | [], _ => none
  | (k0, t0) :: rest, k => if k0 = k then some t0 else getTender rest k

/-- One step of a stable descending insertion by key: the new element goes
after every already-placed element whose key is not smaller (Python's stable
`sorted` with `reverse=True` keeps earlier elements first on ties). -/
def insertDescBy (key : Tender → String) (x : Tender) : List Tender → List Tender
  | [] => [x]
  | y :: ys => if key y < key x then x :: y :: ys else y :: insertDescBy key x ys

/-- `sorted(tenders.values(), key=lambda x: x['uploaded_at'], reverse=True)`
(line 361): Python's `sorted` is stable, and with `reverse=True` it orders by
key descending while ties keep their original (insertion) order; Python
compares strings lexicographically by code point, which is Lean's `String`
order. -/
def pySortedDesc (key : Tender → String) (l : List Tender) : List Tender :=
  l.foldl (fun acc x => insertDescBy key x acc) []

/-- The dashboard listing order: the store's values (in insertion order, as
`dict.values`), sorted by `uploaded_at` descending. -/
def listTenders (m : List (String × Tender)) : List Tender :=
  pySortedDesc (fun t => t.uploaded_at) (m.map Prod.snd)

/-- Case-insensitive occurrence of `needle` at some position of the input,
defined with the same literal matcher as the regex model. -/
def containsCI (needle : String) : List Char → Bool
  | [] => (matchLit true needle.data []).isSome
  | c :: rest => (matchLit true needle.data (c :: rest)).isSome || containsCI needle rest

theorem searchEMD_eq_none (cs : List Char)
    (h1 : containsCI "EMD" cs = false)
    (h2 : containsCI "Earnest Money Deposit" cs = false) :
    searchEMD cs = none := by
  induction cs with
  | nil => rfl
  | cons c rest ih =>
    rw [containsCI, Bool.or_eq_false_iff] at h1 h2
    have hind : matchEMDIndicator (c :: rest) = none := by
      unfold matchEMDIndicator
      cases hm : matchLit true "EMD".data (c :: rest) with
      | some v => rw [hm] at h1; simp at h1
      | none =>
        cases hm2 : matchLit true "Earnest Money Deposit".data (c :: rest) with
        | some v => rw [hm2] at h2; simp at h2
        | none => rfl
    rw [searchEMD, hind]
    exact ih h1.2 h2.2

theorem matchLit_rest_suffix (ci : Bool) :
    ∀ (pat cs : List Char) (mr : List Char × List Char),
      matchLit ci pat cs = some mr → mr.2 <:+ cs := by
  intro pat
  induction pat with
  | nil =>
    intro cs mr h
    rw [matchLit] at h
    cases h
    exact List.suffix_refl cs
  | cons p ps ih =>
    intro cs mr h
    cases cs with
    | nil => simp [matchLit] at h
    | cons c cs' =>
      rw [matchLit] at h
      by_cases hc : charMatches ci p c = true
      · rw [if_pos hc] at h
        cases hm : matchLit ci ps cs' with
        | none => rw [hm] at h; simp at h
        | some pr =>
          rw [hm] at h
          simp only [Option.map_some', Option.some.injEq] at h
          have := ih cs' pr hm
          rw [← h]
          exact this.trans (List.suffix_cons c cs')
      · rw [if_neg hc] at h; simp at h

theorem searchDate_none_suffix (cs : List Char) (h : searchDate cs = none) :
    ∀ s, s <:+ cs → matchDateAt s = none := by
  induction cs with
  | nil =>
    intro s hs
    rw [List.suffix_nil.mp hs]
    rfl
  | cons c rest ih =>
    rw [searchDate] at h
    cases hm : matchDateAt (c :: rest) with
    | some d => rw [hm] at h; simp at h
    | none =>
      rw [hm] at h
      intro s hs
      rcases List.suffix_cons_iff.mp hs with h1 | h2
      · rw [h1]; exact hm
      · exact ih h s h2

theorem dateIndicatorCands_suffix (cs : List Char) :
    ∀ r ∈ dateIndicatorCands cs, r <:+ cs := by
  intro r hr
  unfold dateIndicatorCands at hr
  split at hr
  next mr hm =>
    split at hr
    next mr2 hm2 =>
      simp only [List.mem_cons, List.mem_singleton, List.not_mem_nil, or_false] at hr
      rcases hr with rfl | rfl
      · exact (matchLit_rest_suffix true _ _ mr2 hm2).trans (matchLit_rest_suffix true _ _ mr hm)
      · exact matchLit_rest_suffix true _ _ mr hm
    next hm2 =>
      simp only [List.mem_singleton] at hr
      subst hr
      exact matchLit_rest_suffix true _ _ mr hm
  next hm =>
    split at hr
    next mr hm2 =>
      simp only [List.mem_singleton] at hr
      subst hr
      exact matchLit_rest_suffix true _ _ mr hm2
    next hm2 =>
      split at hr
      next mr hm3 =>
        simp only [List.mem_singleton] at hr
        subst hr
        exact matchLit_rest_suffix true _ _ mr hm3
      next hm3 => simp at hr

theorem searchDueDate_none (cs : List Char)
    (h : ∀ s, s <:+ cs → matchDateAt s = none) : searchDueDate cs = none := by
  induction cs with
  | nil => rfl
  | cons c rest ih =>
    rw [searchDueDate]
    have hfind : (dateIndicatorCands (c :: rest)).findSome? dateAfterIndicator = none := by
      rw [List.findSome?_eq_none_iff]
      intro r hr
      have hsuf : r <:+ c :: rest := dateIndicatorCands_suffix (c :: rest) r hr
      have : matchDateAt (r.dropWhile (fun c => !c.isDigit)) = none :=
        h _ ((List.dropWhile_suffix _).trans hsuf)
      rw [dateAfterIndicator, this, Option.map_none']
    rw [hfind]
    exact ih (fun s hs => h s (hs.trans (List.suffix_cons c rest)))

theorem searchDate_none_of (cs : List Char)
    (h : ∀ s, s <:+ cs → matchDateAt s = none) : searchDate cs = none := by
  induction cs with
  | nil => rfl
  | cons c rest ih =>
    rw [searchDate, h (c :: rest) (List.suffix_refl _)]
    exact ih (fun s hs => h s (hs.trans (List.suffix_cons c rest)))

/-- The input text of Scenario 1 of the spec. -/
def scenario1Text : String :=
  "EMD: Rs. 50,000. Submission date: 12/05/2024. Eligible bidders must be registered vendors..."

/-- C1 (counterexample): on the Scenario-1 text the claim as stated is false —
the numeric token `[\d,\.]+` is greedy and also captures the period that ends
the sentence, so `depositAmount` is `"Rs. 50,000."`, not `"Rs. 50,000"`. -/
theorem scenario1_not_as_stated :
    ¬ ((extract_fields scenario1Text).emd = "Rs. 50,000" ∧
       (extract_fields scenario1Text).due_date = "12/05/2024") := by decide

/-- C1 (amended): on the Scenario-1 text the Field Extractor returns
`depositAmount = "Rs. 50,000."` (the matched currency marker, a space, and the
greedy numeric token, which includes the sentence-ending period) and
`dueDate = "12/05/2024"`. -/
theorem scenario1_fields :
    (extract_fields scenario1Text).emd = "Rs. 50,000." ∧
    (extract_fields scenario1Text).due_date = "12/05/2024" := by decide

/-- C2: the eligibility excerpt is the text itself when its length is at most
200 characters, the first 200 characters followed by `"..."` when longer, and
is never longer than 203 characters. -/
theorem eligibility_excerpt_bounds (text : String) :
    (text.data.length ≤ 200 → (extract_fields text).eligibility = text) ∧
    (200 < text.data.length →
      (extract_fields text).eligibility = String.mk (text.data.take 200) ++ "...") ∧
    (extract_fields text).eligibility.data.length ≤ 203 := by
  have hel : (extract_fields text).eligibility =
      if 200 < text.data.length then String.mk (text.data.take 200) ++ "..." else text := rfl
  refine ⟨fun h => ?_, fun h => ?_, ?_⟩
  · rw [hel, if_neg (by omega)]
  · rw [hel, if_pos h]
  · rw [hel]
    by_cases h : 200 < text.data.length
    · rw [if_pos h]
      rw [String.data_append]
      simp only [List.length_append, List.length_take, List.length_cons, List.length_nil]
      omega
    · rw [if_neg h]
      omega

/-- C2 witness: both branches at concrete inputs. -/
theorem eligibility_excerpt_bounds_witness :
    (extract_fields "short text").eligibility = "short text" ∧
    (extract_fields (String.mk (List.replicate 201 'a'))).eligibility
      = String.mk (List.replicate 200 'a') ++ "..." := by
  constructor
  · exact (eligibility_excerpt_bounds "short text").1 (by decide)
  · have hdata : (String.mk (List.replicate 201 'a')).data = List.replicate 201 'a' := rfl
    have h := (eligibility_excerpt_bounds (String.mk (List.replicate 201 'a'))).2.1
      (by rw [hdata, List.length_replicate]; omega)
    rw [h, hdata, List.take_replicate]
    congr 2

/-- C3: for every text with no deposit-indicator phrase ("EMD" or
"Earnest Money Deposit", case-insensitively), the deposit amount falls back to
the first occurrence anywhere in the text of a currency marker followed by a
numeric token, formatted as marker, space, number; in particular
"Total cost INR 75000" yields "INR 75000". -/
theorem deposit_generic_fallback :
    (∀ (text m n : String),
      containsCI "EMD" text.data = false →
      containsCI "Earnest Money Deposit" text.data = false →
      searchMoney false text.data = some (m, n) →
      (extract_fields text).emd = m ++ " " ++ n) ∧
    (extract_fields "Total cost INR 75000").emd = "INR 75000" := by
  constructor
  · intro text m n h1 h2 h3
    show (match searchEMD text.data with
      | some mn => mn.1 ++ " " ++ mn.2
      | none =>
        match searchMoney false text.data with
        | some mn => mn.1 ++ " " ++ mn.2
        | none => "") = m ++ " " ++ n
    rw [searchEMD_eq_none text.data h1 h2, h3]
  · decide

/-- C3 witness. -/
theorem deposit_generic_fallback_witness :
    (extract_fields "Total cost INR 75000").emd = "INR" ++ " " ++ "75000" :=
  deposit_generic_fallback.1 "Total cost INR 75000" "INR" "75000"
    (by decide) (by decide) (by decide)

/-- C4: for every text containing no date-shaped token (1-2 digit day/month
and 2-4 digit year separated by slash or dash) at any position, the due date
is the empty string — absence is an empty field value; `extract_fields` is a
total function, so no error signal is possible. -/
theorem due_date_empty_when_no_date_token (text : String)
    (h : ∀ s, s <:+ text.data → matchDateAt s = none) :
    (extract_fields text).due_date = "" := by
  show (match searchDueDate text.data with
    | some d => d
    | none =>
      match searchDate text.data with
      | some d => d
      | none => "") = ""
  rw [searchDueDate_none text.data h, searchDate_none_of text.data h]

/-- C4 witness. -/
theorem due_date_empty_when_no_date_token_witness :
    (extract_fields "Eligible bidders must be registered vendors").due_date = "" :=
  due_date_empty_when_no_date_token _
    (searchDate_none_suffix _ (by decide))

/-- C10: the generic currency fallback search (line 106) is compiled without
`re.IGNORECASE`, unlike the targeted deposit search (line 102): a lower-case
marker is not found by the fallback, but is matched (and captured verbatim)
when preceded by "EMD". -/
theorem generic_money_search_case_sensitive :
    (extract_fields "total cost inr 75000").emd = "" ∧
    (extract_fields "EMD: total cost inr 75000").emd = "inr 75000" := by decide

theorem splitGo_eq : ∀ (n : Nat) (cs : List Char), cs.length ≤ n →
    (∀ prev acc, reSplitGo true prev acc cs = specSplitGo true acc cs) ∧
    (∀ prev acc, (isTermChar prev && headIsSpace cs) = false →
       reSplitGo false prev acc cs = specSplitGo false acc cs) := by
  intro n
  induction n with
  | zero =>
    intro cs hlen
    have hnil : cs = [] := List.eq_nil_of_length_eq_zero (Nat.le_zero.mp hlen)
    subst hnil
    exact ⟨fun prev acc => rfl, fun prev acc _ => rfl⟩
  | succ n ih =>
    intro cs hlen
    cases cs with
    | nil => exact ⟨fun prev acc => rfl, fun prev acc _ => rfl⟩
    | cons c rest =>
      have hrest : rest.length ≤ n := by
        simp only [List.length_cons] at hlen; omega
      constructor
      · intro prev acc
        by_cases hsp : isPySpace c = true
        · rw [reSplitGo, if_pos hsp, specSplitGo, if_pos hsp]
          exact (ih rest hrest).1 prev acc
        · rw [reSplitGo, if_neg hsp, specSplitGo, if_neg hsp]
          by_cases htc : (isTermChar c && headIsSpace rest) = true
          · rw [if_pos htc]
            rw [Bool.and_eq_true] at htc
            cases rest with
            | nil => simp [headIsSpace] at htc
            | cons r rest2 =>
              have hspr : isPySpace r = true := by
                simpa only [headIsSpace] using htc.2
              have hrest2 : rest2.length ≤ n := by
                simp only [List.length_cons] at hrest; omega
              rw [reSplitGo, if_pos (by simp [htc.1, hspr])]
              congr 1
              rw [specSplitGo, if_pos hspr]
              exact (ih rest2 hrest2).1 ' ' []
          · rw [if_neg htc]
            exact (ih rest hrest).2 c (c :: acc) (by simpa using htc)
      · intro prev acc hcond
        have hcond' : (isTermChar prev && isPySpace c) = false := hcond
        rw [reSplitGo, if_neg (by simp [hcond']), specSplitGo]
        by_cases htc : (isTermChar c && headIsSpace rest) = true
        · rw [if_pos htc]
          rw [Bool.and_eq_true] at htc
          cases rest with
          | nil => simp [headIsSpace] at htc
          | cons r rest2 =>
            have hspr : isPySpace r = true := by
              simpa only [headIsSpace] using htc.2
            have hrest2 : rest2.length ≤ n := by
              simp only [List.length_cons] at hrest; omega
            rw [reSplitGo, if_pos (by simp [htc.1, hspr])]
            congr 1
            rw [specSplitGo, if_pos hspr]
            exact (ih rest2 hrest2).1 ' ' []
        · rw [if_neg htc]
          exact (ih rest hrest).2 c (c :: acc) (by simpa using htc)

/-- C5: for every input text the Summarizer trims leading and trailing
whitespace, splits into sentences at boundaries where a sentence terminator
(`.`, `!`, `?`) is followed by whitespace (the whitespace run is the
separator), and joins the first three sentences with a single space — stated
as equality with the spec-side splitter `specSplitGo`, which expresses the
boundary by lookahead while the code's regex uses a lookbehind; the empty
input yields the empty output. -/
theorem summary_first_three_sentences :
    (∀ text : String, simple_summary text = summarizeSpec text) ∧
    simple_summary "" = "" := by
  constructor
  · intro text
    unfold simple_summary summarizeSpec pySplitTerm
    congr 2
    have hterm : isTermChar ' ' = false := rfl
    exact (splitGo_eq (pyStrip text).data.length (pyStrip text).data le_rfl).2 ' ' []
      (by rw [hterm, Bool.false_and])
  · rfl

example : pyExt "doc.TXT" = "txt" := by decide
example : pyExt "nodot" = "nodot" := by decide
example : pyExt "a..XLSX" = "xlsx" := by decide
example : pyExt "sheet.xlsx" = "xlsx" := by decide

/-- C6: whenever the extension dispatch produced empty text and a non-empty
row sequence, the text stored in the record — and the text whose summary and
extracted fields the record carries — is the flattening of the first 5 rows
(cells comma-joined, rows newline-joined); for a spreadsheet of 3 rows of 2
cells the flattening is a 3-line string (two newlines). -/
theorem spreadsheet_flatten_fallback :
    (∀ (file_id filename uploaded_at pdfText docxText : String)
       (xlsxRows : List (List String)),
      extTextOf (pyExt filename) pdfText docxText = "" →
      extRowsOf (pyExt filename) xlsxRows ≠ [] →
      (process_file file_id filename uploaded_at pdfText docxText xlsxRows).text
          = flattenRows (extRowsOf (pyExt filename) xlsxRows) ∧
      (process_file file_id filename uploaded_at pdfText docxText xlsxRows).summary
          = simple_summary (flattenRows (extRowsOf (pyExt filename) xlsxRows)) ∧
      (process_file file_id filename uploaded_at pdfText docxText xlsxRows).emd
          = (extract_fields (flattenRows (extRowsOf (pyExt filename) xlsxRows))).emd ∧
      (process_file file_id filename uploaded_at pdfText docxText xlsxRows).due_date
          = (extract_fields (flattenRows (extRowsOf (pyExt filename) xlsxRows))).due_date ∧
      (process_file file_id filename uploaded_at pdfText docxText xlsxRows).eligibility
          = (extract_fields (flattenRows (extRowsOf (pyExt filename) xlsxRows))).eligibility) ∧
    ((process_file "f1" "tender.xlsx" "t0" "" "" [["a", "b"], ["c", "d"], ["e", "f"]]).text
        = "a, b\nc, d\ne, f" ∧
     (process_file "f1" "tender.xlsx" "t0" "" "" [["a", "b"], ["c", "d"], ["e", "f"]]).text.data.count '\n' = 2) := by
  constructor
  · intro file_id filename uploaded_at pdfText docxText xlsxRows h1 h2
    simp only [process_file, h1]
    rw [if_pos (by simp [h2])]
    refine ⟨rfl, ?_, ?_, ?_, ?_⟩
    · by_cases hf : flattenRows (extRowsOf (pyExt filename) xlsxRows) = ""
      · rw [if_neg (by simp [hf]), hf]; rfl
      · rw [if_pos hf]
    · by_cases hf : flattenRows (extRowsOf (pyExt filename) xlsxRows) = ""
      · rw [if_neg (by simp [hf]), hf]; rfl
      · rw [if_pos hf]
    · by_cases hf : flattenRows (extRowsOf (pyExt filename) xlsxRows) = ""
      · rw [if_neg (by simp [hf]), hf]; rfl
      · rw [if_pos hf]
    · by_cases hf : flattenRows (extRowsOf (pyExt filename) xlsxRows) = ""
      · rw [if_neg (by simp [hf]), hf]; rfl
      · rw [if_pos hf]
  · constructor
    · decide
    · decide

/-- C6 witness: the universal part at the concrete 3-rows-of-2-cells input. -/
theorem spreadsheet_flatten_fallback_witness :
    (process_file "f1" "tender.xlsx" "t0" "" "" [["a", "b"], ["c", "d"], ["e", "f"]]).text
      = flattenRows (extRowsOf (pyExt "tender.xlsx") [["a", "b"], ["c", "d"], ["e", "f"]]) :=
  (spreadsheet_flatten_fallback.1 "f1" "tender.xlsx" "t0" "" "" [["a", "b"], ["c", "d"], ["e", "f"]]
    (by decide) (by decide)).1

/-- C7: for every uploaded file whose lower-cased extension is not among
pdf, docx, xlsx, xls, no extractor output influences the record (the record
equals the one built with all extractor results blanked), and the stored text,
table rows and every derived field are empty.  `process_file` is a total
function, so no error is raised. -/
theorem unrecognized_extension_empty_record
    (file_id filename uploaded_at pdfText docxText : String) (xlsxRows : List (List String))
    (h1 : pyExt filename ≠ "pdf") (h2 : pyExt filename ≠ "docx")
    (h3 : pyExt filename ≠ "xlsx") (h4 : pyExt filename ≠ "xls") :
    (process_file file_id filename uploaded_at pdfText docxText xlsxRows).text = "" ∧
    (process_file file_id filename uploaded_at pdfText docxText xlsxRows).table_rows = [] ∧
    (process_file file_id filename uploaded_at pdfText docxText xlsxRows).summary = "" ∧
    (process_file file_id filename uploaded_at pdfText docxText xlsxRows).emd = "" ∧
    (process_file file_id filename uploaded_at pdfText docxText xlsxRows).due_date = "" ∧
    (process_file file_id filename uploaded_at pdfText docxText xlsxRows).eligibility = "" ∧
    process_file file_id filename uploaded_at pdfText docxText xlsxRows
      = process_file file_id filename uploaded_at "" "" [] := by
  have he : extTextOf (pyExt filename) pdfText docxText = "" := by
    unfold extTextOf; rw [if_neg h1, if_neg h2]
  have he2 : extTextOf (pyExt filename) "" "" = "" := by
    unfold extTextOf; rw [if_neg h1, if_neg h2]
  have hxor : ¬(pyExt filename = "xlsx" ∨ pyExt filename = "xls") := by
    rintro (h | h)
    · exact h3 h
    · exact h4 h
  have hr : extRowsOf (pyExt filename) xlsxRows = [] := by
    unfold extRowsOf; rw [if_neg hxor]
  have hr2 : extRowsOf (pyExt filename) [] = [] := by
    unfold extRowsOf; rw [if_neg hxor]
  simp only [process_file, he, he2, hr, hr2]
  norm_num [defaultFields]

/-- C7 witness. -/
theorem unrecognized_extension_empty_record_witness :
    (process_file "f2" "notes.txt" "t1" "sometext" "other" [["x"]]).text = "" ∧
    (process_file "f2" "notes.txt" "t1" "sometext" "other" [["x"]]).table_rows = [] ∧
    (process_file "f2" "notes.txt" "t1" "sometext" "other" [["x"]]).summary = "" ∧
    (process_file "f2" "notes.txt" "t1" "sometext" "other" [["x"]]).emd = "" ∧
    (process_file "f2" "notes.txt" "t1" "sometext" "other" [["x"]]).due_date = "" ∧
    (process_file "f2" "notes.txt" "t1" "sometext" "other" [["x"]]).eligibility = "" ∧
    process_file "f2" "notes.txt" "t1" "sometext" "other" [["x"]]
      = process_file "f2" "notes.txt" "t1" "" "" [] :=
  unrecognized_extension_empty_record "f2" "notes.txt" "t1" "sometext" "other" [["x"]]
    (by decide) (by decide) (by decide) (by decide)

theorem insertDescBy_perm (key : Tender → String) (x : Tender) (l : List Tender) :
    List.Perm (insertDescBy key x l) (x :: l) := by
  induction l with
  | nil => exact List.Perm.refl _
  | cons y ys ih =>
    rw [insertDescBy]
    by_cases h : key y < key x
    · rw [if_pos h]
    · rw [if_neg h]
      exact (ih.cons y).trans (List.Perm.swap x y ys)

theorem insertDescBy_pairwise (key : Tender → String) (x : Tender) (l : List Tender)
    (h : l.Pairwise (fun a b => key b ≤ key a)) :
    (insertDescBy key x l).Pairwise (fun a b => key b ≤ key a) := by
  induction l with
  | nil => simp [insertDescBy]
  | cons y ys ih =>
    rw [insertDescBy]
    obtain ⟨hy, hys⟩ := List.pairwise_cons.mp h
    by_cases hlt : key y < key x
    · rw [if_pos hlt]
      refine List.pairwise_cons.mpr ⟨?_, h⟩
      intro z hz
      rcases List.mem_cons.mp hz with rfl | hz'
      · exact le_of_lt hlt
      · exact (hy z hz').trans (le_of_lt hlt)
    · rw [if_neg hlt]
      refine List.pairwise_cons.mpr ⟨?_, ih hys⟩
      intro z hz
      have hz' := (insertDescBy_perm key x ys).mem_iff.mp hz
      rcases List.mem_cons.mp hz' with rfl | hz''
      · exact le_of_not_lt hlt
      · exact hy z hz''

theorem filter_key_eq_nil (key : Tender → String) (k : String) (y : Tender) (ys : List Tender)
    (h : (y :: ys).Pairwise (fun a b => key b ≤ key a)) (hlt : key y < k) :
    (y :: ys).filter (fun t => key t == k) = [] := by
  rw [List.filter_eq_nil_iff]
  intro z hz
  simp only [beq_iff_eq]
  rcases List.mem_cons.mp hz with rfl | hz'
  · exact ne_of_lt hlt
  · exact ne_of_lt (lt_of_le_of_lt ((List.pairwise_cons.mp h).1 z hz') hlt)

theorem insertDescBy_filter (key : Tender → String) (k : String) (x : Tender) (l : List Tender)
    (h : l.Pairwise (fun a b => key b ≤ key a)) :
    (insertDescBy key x l).filter (fun t => key t == k)
      = l.filter (fun t => key t == k) ++ (if key x = k then [x] else []) := by
  induction l with
  | nil =>
    simp only [insertDescBy, List.filter_nil, List.nil_append, List.filter_cons]
    by_cases hk : key x = k
    · rw [if_pos hk, if_pos (by simpa using hk)]
    · rw [if_neg hk, if_neg (by simpa using hk)]
  | cons y ys ih =>
    rw [insertDescBy]
    by_cases hlt : key y < key x
    · rw [if_pos hlt]
      by_cases hk : key x = k
      · rw [if_pos hk]
        rw [List.filter_cons_of_pos (by simpa using hk)]
        rw [filter_key_eq_nil key k y ys h (hk ▸ hlt)]
        rfl
      · rw [if_neg hk]
        rw [List.filter_cons_of_neg (by simpa using hk), List.append_nil]
    · rw [if_neg hlt]
      rw [List.filter_cons, List.filter_cons, ih (List.pairwise_cons.mp h).2]
      by_cases hy : (key y == k) = true
      · rw [if_pos hy, if_pos hy, List.cons_append]
      · rw [if_neg hy, if_neg hy]

theorem fold_insert_sorted_filter (key : Tender → String) :
    ∀ (l acc : List Tender), acc.Pairwise (fun a b => key b ≤ key a) →
      (l.foldl (fun acc x => insertDescBy key x acc) acc).Pairwise
          (fun a b => key b ≤ key a) ∧
      ∀ k, (l.foldl (fun acc x => insertDescBy key x acc) acc).filter (fun t => key t == k)
          = acc.filter (fun t => key t == k) ++ l.filter (fun t => key t == k) := by
  intro l
  induction l with
  | nil => exact fun acc h => ⟨h, fun k => by simp⟩
  | cons x xs ih =>
    intro acc h
    rw [List.foldl_cons]
    obtain ⟨hs, hf⟩ := ih (insertDescBy key x acc) (insertDescBy_pairwise key x acc h)
    refine ⟨hs, fun k => ?_⟩
    rw [hf k, insertDescBy_filter key k x acc h, List.filter_cons]
    by_cases hx : (key x == k) = true
    · rw [if_pos hx, if_pos (beq_iff_eq.mp hx), List.append_assoc, List.singleton_append]
    · rw [if_neg hx, if_neg (by simpa using hx), List.append_nil]

theorem fold_insert_perm (key : Tender → String) :
    ∀ (l acc : List Tender),
      List.Perm (l.foldl (fun acc x => insertDescBy key x acc) acc) (acc ++ l) := by
  intro l
  induction l with
  | nil => intro acc; simp
  | cons x xs ih =>
    intro acc
    rw [List.foldl_cons]
    have h2 : List.Perm (insertDescBy key x acc ++ xs) ((x :: acc) ++ xs) :=
      (insertDescBy_perm key x acc).append_right xs
    have h3 : List.Perm ((x :: acc) ++ xs) (acc ++ x :: xs) := by
      rw [List.cons_append]
      exact List.perm_middle.symm
    exact ((ih (insertDescBy key x acc)).trans h2).trans h3

/-- C9: the dashboard listing is a permutation of the stored records' values,
ordered by `uploadedAt` descending (Python compares the ISO strings, i.e. the
code-point lexicographic order), and records with equal `uploadedAt` appear
exactly as in the store's insertion order (the per-key filtrations agree), the
stability of Python's `sorted`. -/
theorem list_tenders_sorted_desc_stable (m : List (String × Tender)) :
    List.Perm (listTenders m) (m.map Prod.snd) ∧
    (listTenders m).Pairwise (fun a b => b.uploaded_at ≤ a.uploaded_at) ∧
    ∀ d, (listTenders m).filter (fun t => t.uploaded_at == d)
        = (m.map Prod.snd).filter (fun t => t.uploaded_at == d) := by
  unfold listTenders pySortedDesc
  refine ⟨?_, ?_, fun d => ?_⟩
  · simpa using fold_insert_perm (fun t => t.uploaded_at) (m.map Prod.snd) []
  · exact (fold_insert_sorted_filter (fun t => t.uploaded_at) (m.map Prod.snd) []
      List.Pairwise.nil).1
  · simpa using (fold_insert_sorted_filter (fun t => t.uploaded_at) (m.map Prod.snd) []
      List.Pairwise.nil).2 d

/-- JSON whitespace, as skipped by `json.load` between tokens. -/
def isJsonWs (c : Char) : Bool :=
  c == ' ' || c == '\t' || c == '\n' || c == '\r'

/-- Skip insignificant whitespace. -/
def skipWs (cs : List Char) : List Char := cs.dropWhile isJsonWs

/-- Lower-case hexadecimal digit, as Python's `'\\u%04x'` formatting emits. -/
def hexDig (n : Nat) : Char :=
  if n < 10 then Char.ofNat ('0'.toNat + n) else Char.ofNat ('a'.toNat + (n - 10))

/-- Per-character escaping of `json.dump` with `ensure_ascii=False`: quote,
backslash and the named control escapes, `\u00XX` for the remaining control
characters, everything else (including non-ASCII) verbatim. -/
def escChar (c : Char) : List Char :=
  if c == '"' then ['\\', '"']
  else if c == '\\' then ['\\', '\\']
  else if c == '\n' then ['\\', 'n']
  else if c == '\r' then ['\\', 'r']
  else if c == '\t' then ['\\', 't']
  else if c == '\x08' then ['\\', 'b']
  else if c == '\x0c' then ['\\', 'f']
  else if c.toNat < 32 then ['\\', 'u', '0', '0', hexDig (c.toNat / 16), hexDig (c.toNat % 16)]
  else [c]

/-- Escape a whole string body. -/
def escStr : List Char → List Char
  | [] => []
  | c :: rest => escChar c ++ escStr rest

/-- A JSON string literal: quote, escaped body, quote. -/
def encStrL (s : String) : List Char := '"' :: (escStr s.data ++ ['"'])

/-- The newline-plus-indent separator `json.dump` emits with `indent=2`. -/
def nlInd (level : Nat) : List Char := '\n' :: List.replicate (2 * level) ' '

/-- The items after the first element of an indented JSON array of strings. -/
def encCellItems (lvl : Nat) : List String → List Char
  | [] => []
  | c :: cs => ',' :: (nlInd lvl ++ (encStrL c ++ encCellItems lvl cs))

/-- An indented JSON array of strings (one table row). -/
def encRow (lvl : Nat) : List String → List Char
  | [] => ['[', ']']
  | c :: cs =>
    '[' :: (nlInd (lvl + 1) ++ (encStrL c ++ (encCellItems (lvl + 1) cs ++ (nlInd lvl ++ [']']))))

/-- The items after the first row of the `table_rows` array. -/
def encRowItems (lvl : Nat) : List (List String) → List Char
  | [] => []
  | r :: rs => ',' :: (nlInd lvl ++ (encRow lvl r ++ encRowItems lvl rs))

/-- The indented JSON array of arrays for `table_rows`. -/
def encRows (lvl : Nat) : List (List String) → List Char
  | [] => ['[', ']']
  | r :: rs =>
    '[' :: (nlInd (lvl + 1) ++ (encRow (lvl + 1) r ++ (encRowItems (lvl + 1) rs ++ (nlInd lvl ++ [']']))))

/-- One `"key": value` member of an indented JSON object, preceded by its
newline and indent. -/
def encEntry (lvl : Nat) (k : String) (v : List Char) : List Char :=
  nlInd lvl ++ (encStrL k ++ (':' :: ' ' :: v))

/-- The serialized form of one tender record: a JSON object with the ten
fields in the order `process_file` constructs them (Python dicts preserve
insertion order and `json.dump` writes keys in that order). -/
def encTender (lvl : Nat) (t : Tender) : List Char :=
  ['\x7b']
  ++ encEntry (lvl + 1) "id" (encStrL t.id)
  ++ [','] ++ encEntry (lvl + 1) "filename" (encStrL t.filename)
  ++ [','] ++ encEntry (lvl + 1) "path" (encStrL t.path)
  ++ [','] ++ encEntry (lvl + 1) "text" (encStrL t.text)
  ++ [','] ++ encEntry (lvl + 1) "table_rows" (encRows (lvl + 1) t.table_rows)
  ++ [','] ++ encEntry (lvl + 1) "summary" (encStrL t.summary)
  ++ [','] ++ encEntry (lvl + 1) "emd" (encStrL t.emd)
  ++ [','] ++ encEntry (lvl + 1) "due_date" (encStrL t.due_date)
  ++ [','] ++ encEntry (lvl + 1) "eligibility" (encStrL t.eligibility)
  ++ [','] ++ encEntry (lvl + 1) "uploaded_at" (encStrL t.uploaded_at)
  ++ nlInd lvl ++ ['\x7d']

/-- The members after the first of the top-level id → tender object. -/
def encMapItems : List (String × Tender) → List Char
  | [] => []
  | (k, t) :: rest => ',' :: (encEntry 1 k (encTender 1 t) ++ encMapItems rest)

/-- The whole snapshot: the top-level JSON object mapping ids to tenders. -/
def encTenders : List (String × Tender) → List Char
  | [] => ['\x7b', '\x7d']
  | (k, t) :: rest =>
    '\x7b' :: (encEntry 1 k (encTender 1 t) ++ (encMapItems rest ++ (nlInd 0 ++ ['\x7d'])))

/-- `save_tenders` (lines 39-42): the snapshot text that
`json.dump(tenders, f, ensure_ascii=False, indent=2)` writes to
`tenders.json`. -/
def save_tenders (m : List (String × Tender)) : String := String.mk (encTenders m)

/-- JSON values as rebuilt by `json.load`; the snapshot only ever contains
strings, arrays and objects, so those are the forms modelled. -/
inductive J where
  | str : String → J
  | arr : List J → J
  | obj : List (String × J) → J
deriving Repr

/-- Value of one hexadecimal digit. -/
def hexVal (c : Char) : Option Nat :=
  if '0' ≤ c ∧ c ≤ '9' then some (c.toNat - '0'.toNat)
  else if 'a' ≤ c ∧ c ≤ 'f' then some (c.toNat - 'a'.toNat + 10)
  else if 'A' ≤ c ∧ c ≤ 'F' then some (c.toNat - 'A'.toNat + 10)
  else none

/-- The single-character escapes accepted by `json.load`. -/
def unescapeChar (e : Char) : Option Char :=
  if e == '"' then some '"'
  else if e == '\\' then some '\\'
  else if e == '/' then some '/'
  else if e == 'n' then some '\n'
  else if e == 't' then some '\t'
  else if e == 'r' then some '\r'
  else if e == 'b' then some '\x08'
  else if e == 'f' then some '\x0c'
  else none

/-- Scan a JSON string body after its opening quote: plain characters up to
the closing quote, backslash escapes, and `\uXXXX` code units. -/
def parseStringBody : List Char → Option (List Char × List Char)
  | [] => none
  | c :: rest =>
    if c == '"' then some ([], rest)
    else if c == '\\' then
      match rest with
      | [] => none
      | e :: rest2 =>
        if e == 'u' then
          match rest2 with
          | h1 :: h2 :: h3 :: h4 :: rest3 =>
            match hexVal h1, hexVal h2, hexVal h3, hexVal h4 with
            | some a, some b, some x, some d =>
              (parseStringBody rest3).map
                (fun sr => (Char.ofNat (((a * 16 + b) * 16 + x) * 16 + d) :: sr.1, sr.2))
            | _, _, _, _ => none
          | _ => none
        else
          (unescapeChar e).bind (fun uc =>
            (parseStringBody rest2).map (fun sr => (uc :: sr.1, sr.2)))
    else
      (parseStringBody rest).map (fun sr => (c :: sr.1, sr.2))

mutual

/-- Recursive-descent JSON value parser (the model of `json.load`'s scanner on
the value forms the snapshot contains).  The fuel bounds the recursion depth;
the top-level caller passes more fuel than any parseable input can need. -/
def parseValue : Nat → List Char → Option (J × List Char)
  | 0, _ => none
  | fuel + 1, cs =>
    match skipWs cs with
    | '"' :: rest => (parseStringBody rest).map (fun sr => (J.str (String.mk sr.1), sr.2))
    | '[' :: rest =>
      match skipWs rest with
      | ']' :: r2 => some (J.arr [], r2)
      | _ => (parseItems fuel rest).map (fun vr => (J.arr vr.1, vr.2))
    | '\x7b' :: rest =>
      match skipWs rest with
      | '\x7d' :: r2 => some (J.obj [], r2)
      | _ => (parseEntries fuel rest).map (fun er => (J.obj er.1, er.2))
    | _ => none
termination_by fuel _ => (fuel, 0)

/-- Comma-separated array items up to the closing bracket. -/
def parseItems : Nat → List Char → Option (List J × List Char)
  | 0, _ => none
  | fuel + 1, cs =>
    (parseValue (fuel + 1) cs).bind (fun vr =>
      match skipWs vr.2 with
      | ',' :: r2 => (parseItems fuel r2).map (fun lr => (vr.1 :: lr.1, lr.2))
      | ']' :: r2 => some ([vr.1], r2)
      | _ => none)
termination_by fuel _ => (fuel, 1)

/-- Comma-separated `"key": value` members up to the closing brace. -/
def parseEntries : Nat → List Char → Option (List (String × J) × List Char)
  | 0, _ => none
  | fuel + 1, cs =>
    match skipWs cs with
    | '"' :: rest =>
      (parseStringBody rest).bind (fun kr =>
        match skipWs kr.2 with
        | ':' :: r2 =>
          (parseValue (fuel + 1) r2).bind (fun vr =>
            match skipWs vr.2 with
            | ',' :: r3 =>
              (parseEntries fuel r3).map (fun er => ((String.mk kr.1, vr.1) :: er.1, er.2))
            | '\x7d' :: r3 => some ([(String.mk kr.1, vr.1)], r3)
            | _ => none)
        | _ => none)
    | _ => none
termination_by fuel _ => (fuel, 2)

end

/-- Decode a parsed array of strings. -/
def strsOfJ : List J → Option (List String)
  | [] => some []
  | J.str s :: rest => (strsOfJ rest).map (fun l => s :: l)
  | _ :: _ => none

/-- Decode the parsed rows of `table_rows`. -/
def rowsOfJList : List J → Option (List (List String))
  | [] => some []
  | J.arr cells :: rest =>
    (strsOfJ cells).bind (fun row => (rowsOfJList rest).map (fun l => row :: l))
  | _ :: _ => none

/-- Decode the parsed `table_rows` value. -/
def rowsOfJ : J → Option (List (List String))
  | J.arr rows => rowsOfJList rows
  | _ => none

/-- Reassemble a `Tender` from a parsed snapshot object: the ten declared
fields, in the order `process_file` writes them. -/
def jToTender : J → Option Tender
  | J.obj [("id", J.str id), ("filename", J.str filename), ("path", J.str path),
           ("text", J.str text), ("table_rows", rowsJ), ("summary", J.str summary),
           ("emd", J.str emd), ("due_date", J.str due_date),
           ("eligibility", J.str eligibility), ("uploaded_at", J.str uploaded_at)] =>
    (rowsOfJ rowsJ).map (fun table_rows =>
      { id := id, filename := filename, path := path, text := text,
        table_rows := table_rows, summary := summary, emd := emd,
        due_date := due_date, eligibility := eligibility, uploaded_at := uploaded_at })
  | _ => none

/-- Rebuild the id → Tender mapping from the parsed top-level object. -/
def tendersOfEntries : List (String × J) → Option (List (String × Tender))
  | [] => some []
  | (k, jv) :: rest =>
    (jToTender jv).bind (fun t => (tendersOfEntries rest).map (fun l => (k, t) :: l))

/-- The startup load (lines 32-34): `tenders = json.load(f)` — parse the
snapshot text (accepting only trailing whitespace after the top-level object)
and rebuild the mapping. -/
def load_tenders (s : String) : Option (List (String × Tender)) :=
  match parseValue (s.data.length + 1) s.data with
  | some (J.obj entries, rest) => if skipWs rest = [] then tendersOfEntries entries else none
  | _ => none

theorem getTender_putTender (m : List (String × Tender)) (t : Tender) :
    getTender (putTender m t.id t) t.id = some t := by
  induction m with
  | nil => simp [putTender, getTender]
  | cons kv rest ih =>
    obtain ⟨k0, t0⟩ := kv
    rw [putTender]
    by_cases h : k0 = t.id
    · rw [if_pos h, getTender, if_pos h]
    · rw [if_neg h, getTender, if_neg h]
      exact ih

/-- Every character of the list is JSON whitespace. -/
def IsWsList (ws : List Char) : Prop := ∀ c ∈ ws, isJsonWs c = true

theorem isWsList_nil : IsWsList [] := by intro c hc; cases hc

theorem isWsList_space : IsWsList [' '] := by
  intro c hc
  rcases List.mem_singleton.mp hc with rfl
  rfl

theorem isWsList_nlInd (lvl : Nat) : IsWsList (nlInd lvl) := by
  intro c hc
  rw [nlInd] at hc
  rcases List.mem_cons.mp hc with rfl | h
  · rfl
  · rw [List.eq_of_mem_replicate h]
    rfl

theorem skipWs_ws_append (ws cs : List Char) (h : IsWsList ws) :
    skipWs (ws ++ cs) = skipWs cs := by
  induction ws with
  | nil => rw [List.nil_append]
  | cons w ws' ih =>
    rw [List.cons_append, skipWs, List.dropWhile_cons,
      if_pos (h w (List.mem_cons_self w ws'))]
    exact ih (fun c hc => h c (List.mem_cons_of_mem w hc))

theorem skipWs_cons_nonws (c : Char) (cs : List Char) (h : isJsonWs c = false) :
    skipWs (c :: cs) = c :: cs := by
  rw [skipWs, List.dropWhile_cons, if_neg (by simp [h])]

theorem hexVal_hexDig : ∀ d, d < 16 → hexVal (hexDig d) = some d := by decide

theorem parseStringBody_esc (s : List Char) :
    ∀ rest : List Char, parseStringBody (escStr s ++ ('"' :: rest)) = some (s, rest) := by
  induction s with
  | nil =>
    intro rest
    rw [show escStr [] = [] from rfl, List.nil_append, parseStringBody.eq_def]
    simp
  | cons c s ih =>
    intro rest
    show parseStringBody ((escChar c ++ escStr s) ++ ('"' :: rest)) = some (c :: s, rest)
    rw [List.append_assoc]
    by_cases h1 : c = '"'
    · subst h1
      rw [show escChar '"' = ['\\', '"'] from rfl, List.cons_append, List.cons_append,
        List.nil_append, parseStringBody.eq_def]
      simp [unescapeChar, ih rest]
    · by_cases h2 : c = '\\'
      · subst h2
        rw [show escChar '\\' = ['\\', '\\'] from rfl, List.cons_append, List.cons_append,
          List.nil_append, parseStringBody.eq_def]
        simp [unescapeChar, ih rest]
      · by_cases h3 : c = '\n'
        · subst h3
          rw [show escChar '\n' = ['\\', 'n'] from rfl, List.cons_append, List.cons_append,
            List.nil_append, parseStringBody.eq_def]
          simp [unescapeChar, ih rest]
        · by_cases h4 : c = '\r'
          · subst h4
            rw [show escChar '\r' = ['\\', 'r'] from rfl, List.cons_append, List.cons_append,
              List.nil_append, parseStringBody.eq_def]
            simp [unescapeChar, ih rest]
          · by_cases h5 : c = '\t'
            · subst h5
              rw [show escChar '\t' = ['\\', 't'] from rfl, List.cons_append, List.cons_append,
                List.nil_append, parseStringBody.eq_def]
              simp [unescapeChar, ih rest]
            · by_cases h6 : c = '\x08'
              · subst h6
                rw [show escChar '\x08' = ['\\', 'b'] from rfl, List.cons_append,
                  List.cons_append, List.nil_append, parseStringBody.eq_def]
                simp [unescapeChar, ih rest]
              · by_cases h7 : c = '\x0c'
                · subst h7
                  rw [show escChar '\x0c' = ['\\', 'f'] from rfl, List.cons_append,
                    List.cons_append, List.nil_append, parseStringBody.eq_def]
                  simp [unescapeChar, ih rest]
                · by_cases h8 : c.toNat < 32
                  · have hesc : escChar c
                        = ['\\', 'u', '0', '0', hexDig (c.toNat / 16), hexDig (c.toNat % 16)] := by
                      rw [escChar, if_neg (by simp [h1]), if_neg (by simp [h2]),
                        if_neg (by simp [h3]), if_neg (by simp [h4]), if_neg (by simp [h5]),
                        if_neg (by simp [h6]), if_neg (by simp [h7]), if_pos h8]
                    have e3 : hexVal (hexDig (c.toNat / 16)) = some (c.toNat / 16) :=
                      hexVal_hexDig _ (by omega)
                    have e4 : hexVal (hexDig (c.toNat % 16)) = some (c.toNat % 16) :=
                      hexVal_hexDig _ (by omega)
                    rw [hesc, List.cons_append, List.cons_append, List.cons_append,
                      List.cons_append, List.cons_append, List.cons_append, List.nil_append,
                      parseStringBody.eq_def]
                    simp only [List.cons.injEq, reduceIte, Char.reduceBEq]
                    rw [show hexVal '0' = some 0 from rfl]
                    simp only [e3, e4, ih rest, Option.map_some']
                    have harith : ((0 * 16 + 0) * 16 + c.toNat / 16) * 16 + c.toNat % 16
                        = c.toNat := by omega
                    rw [harith, Char.ofNat_toNat]
                    simp
                  · have hesc : escChar c = [c] := by
                      rw [escChar, if_neg (by simp [h1]), if_neg (by simp [h2]),
                        if_neg (by simp [h3]), if_neg (by simp [h4]), if_neg (by simp [h5]),
                        if_neg (by simp [h6]), if_neg (by simp [h7]), if_neg h8]
                    rw [hesc, List.singleton_append, parseStringBody.eq_def]
                    simp [h1, h2, ih rest]

theorem parseValue_succ (fuel : Nat) (cs : List Char) :
    parseValue (fuel + 1) cs =
      match skipWs cs with
      | '"' :: rest => (parseStringBody rest).map (fun sr => (J.str (String.mk sr.1), sr.2))
      | '[' :: rest =>
        (match skipWs rest with
         | ']' :: r2 => some (J.arr [], r2)
         | _ => (parseItems fuel rest).map (fun vr => (J.arr vr.1, vr.2)))
      | '\x7b' :: rest =>
        (match skipWs rest with
         | '\x7d' :: r2 => some (J.obj [], r2)
         | _ => (parseEntries fuel rest).map (fun er => (J.obj er.1, er.2)))
      | _ => none := by
  rw [parseValue.eq_def]

theorem parseItems_succ (fuel : Nat) (cs : List Char) :
    parseItems (fuel + 1) cs =
      (parseValue (fuel + 1) cs).bind (fun vr =>
        match skipWs vr.2 with
        | ',' :: r2 => (parseItems fuel r2).map (fun lr => (vr.1 :: lr.1, lr.2))
        | ']' :: r2 => some ([vr.1], r2)
        | _ => none) := by
  rw [parseItems.eq_def]

theorem parseEntries_succ (fuel : Nat) (cs : List Char) :
    parseEntries (fuel + 1) cs =
      match skipWs cs with
      | '"' :: rest =>
        (parseStringBody rest).bind (fun kr =>
          match skipWs kr.2 with
          | ':' :: r2 =>
            (parseValue (fuel + 1) r2).bind (fun vr =>
              match skipWs vr.2 with
              | ',' :: r3 =>
                (parseEntries fuel r3).map (fun er => ((String.mk kr.1, vr.1) :: er.1, er.2))
              | '\x7d' :: r3 => some ([(String.mk kr.1, vr.1)], r3)
              | _ => none)
          | _ => none)
      | _ => none := by
  rw [parseEntries.eq_def]

theorem encStrL_cons (s : String) (rest : List Char) :
    encStrL s ++ rest = '"' :: (escStr s.data ++ ('"' :: rest)) := by
  rw [encStrL, List.cons_append, List.append_assoc, List.singleton_append]

theorem parseValue_str (fuel : Nat) (ws : List Char) (hws : IsWsList ws)
    (s : String) (rest : List Char) :
    parseValue (fuel + 1) (ws ++ (encStrL s ++ rest)) = some (J.str s, rest) := by
  rw [parseValue_succ, encStrL_cons, skipWs_ws_append _ _ hws,
    skipWs_cons_nonws _ _ (by rfl)]
  simp [parseStringBody_esc s.data rest]

/-- The parsed form of one table row. -/
def rowToJ (row : List String) : J := J.arr (row.map J.str)

/-- The parsed form of `table_rows`. -/
def rowsToJ (rows : List (List String)) : J := J.arr (rows.map rowToJ)

theorem parseItems_cells (cells : List String) :
    ∀ (fuel lvl lvl2 : Nat) (first : String) (rest : List Char),
      cells.length + 2 ≤ fuel →
      parseItems fuel
          (nlInd lvl ++ (encStrL first ++ (encCellItems lvl cells ++ (nlInd lvl2 ++ (']' :: rest)))))
        = some ((first :: cells).map J.str, rest) := by
  induction cells with
  | nil =>
    intro fuel lvl lvl2 first rest hfuel
    match fuel, hfuel with
    | f + 1, hfuel =>
      rw [parseItems_succ,
        parseValue_str f (nlInd lvl) (isWsList_nlInd lvl) first _,
        show encCellItems lvl [] = [] from rfl, List.nil_append, Option.some_bind,
        skipWs_ws_append _ _ (isWsList_nlInd lvl2), skipWs_cons_nonws _ _ (by rfl)]
      simp
  | cons c2 cs2 ih =>
    intro fuel lvl lvl2 first rest hfuel
    match fuel, hfuel with
    | f + 1, hfuel =>
      rw [parseItems_succ,
        parseValue_str f (nlInd lvl) (isWsList_nlInd lvl) first _, Option.some_bind,
        encCellItems, List.cons_append,
        skipWs_cons_nonws _ _ (by rfl)]
      have harr : (nlInd lvl ++ (encStrL c2 ++ encCellItems lvl cs2))
            ++ (nlInd lvl2 ++ (']' :: rest))
          = nlInd lvl ++ (encStrL c2 ++ (encCellItems lvl cs2 ++ (nlInd lvl2 ++ (']' :: rest)))) := by
        simp [List.append_assoc]
      show (parseItems f ((nlInd lvl ++ (encStrL c2 ++ encCellItems lvl cs2))
          ++ (nlInd lvl2 ++ (']' :: rest)))).map
            (fun lr => (J.str first :: lr.1, lr.2)) = _
      rw [harr, ih f lvl lvl2 c2 rest (by simp only [List.length_cons] at hfuel; omega)]
      simp

theorem parseValue_quote (fuel : Nat) (cs rest2 : List Char) (h : skipWs cs = '"' :: rest2) :
    parseValue (fuel + 1) cs
      = (parseStringBody rest2).map (fun sr => (J.str (String.mk sr.1), sr.2)) := by
  rw [parseValue_succ, h]
  simp

theorem parseValue_open_bracket (fuel : Nat) (cs rest2 : List Char)
    (h : skipWs cs = '[' :: rest2) :
    parseValue (fuel + 1) cs =
      match skipWs rest2 with
      | ']' :: r2 => some (J.arr [], r2)
      | _ => (parseItems fuel rest2).map (fun vr => (J.arr vr.1, vr.2)) := by
  rw [parseValue_succ, h]
  simp

theorem parseValue_open_brace (fuel : Nat) (cs rest2 : List Char)
    (h : skipWs cs = '\x7b' :: rest2) :
    parseValue (fuel + 1) cs =
      match skipWs rest2 with
      | '\x7d' :: r2 => some (J.obj [], r2)
      | _ => (parseEntries fuel rest2).map (fun er => (J.obj er.1, er.2)) := by
  rw [parseValue_succ, h]
  simp

theorem parseItems_step_comma (fuel : Nat) (cs : List Char) (v : J) (r r2 : List Char)
    (hv : parseValue (fuel + 1) cs = some (v, r)) (hr : skipWs r = ',' :: r2) :
    parseItems (fuel + 1) cs = (parseItems fuel r2).map (fun lr => (v :: lr.1, lr.2)) := by
  rw [parseItems_succ, hv, Option.some_bind, hr]
  simp

theorem parseItems_step_close (fuel : Nat) (cs : List Char) (v : J) (r r2 : List Char)
    (hv : parseValue (fuel + 1) cs = some (v, r)) (hr : skipWs r = ']' :: r2) :
    parseItems (fuel + 1) cs = some ([v], r2) := by
  rw [parseItems_succ, hv, Option.some_bind, hr]
  simp

theorem parseValue_row (row : List String) :
    ∀ (fuel lvl : Nat) (ws rest : List Char), IsWsList ws → row.length + 2 ≤ fuel →
    parseValue fuel (ws ++ (encRow lvl row ++ rest)) = some (rowToJ row, rest) := by
  intro fuel lvl ws rest hws hfuel
  cases fuel with
  | zero => exact absurd hfuel (by omega)
  | succ f =>
    cases row with
    | nil =>
      have hskip : skipWs (ws ++ (encRow lvl [] ++ rest)) = '[' :: (']' :: rest) := by
        rw [show encRow lvl [] = ['[', ']'] from rfl, List.cons_append, List.cons_append,
          List.nil_append, skipWs_ws_append _ _ hws, skipWs_cons_nonws _ _ (by rfl)]
      rw [parseValue_open_bracket f _ _ hskip, skipWs_cons_nonws _ _ (by rfl)]
      simp [rowToJ]
    | cons c cs =>
      have hshape : encRow lvl (c :: cs) ++ rest
          = '[' :: (nlInd (lvl + 1) ++ (encStrL c ++ (encCellItems (lvl + 1) cs
              ++ (nlInd lvl ++ (']' :: rest))))) := by
        rw [encRow, List.cons_append]
        simp [List.append_assoc]
      have hskip : skipWs (ws ++ (encRow lvl (c :: cs) ++ rest))
          = '[' :: (nlInd (lvl + 1) ++ (encStrL c ++ (encCellItems (lvl + 1) cs
              ++ (nlInd lvl ++ (']' :: rest))))) := by
        rw [hshape, skipWs_ws_append _ _ hws, skipWs_cons_nonws _ _ (by rfl)]
      rw [show ws ++ (encRow lvl (c :: cs) ++ rest)
          = ws ++ ('[' :: (nlInd (lvl + 1) ++ (encStrL c ++ (encCellItems (lvl + 1) cs
              ++ (nlInd lvl ++ (']' :: rest)))))) from by rw [hshape]] at hskip ⊢
      rw [parseValue_open_bracket f _ _ hskip]
      have hskip2 : skipWs (nlInd (lvl + 1) ++ (encStrL c ++ (encCellItems (lvl + 1) cs
            ++ (nlInd lvl ++ (']' :: rest)))))
          = '"' :: (escStr c.data ++ ('"' :: (encCellItems (lvl + 1) cs
            ++ (nlInd lvl ++ (']' :: rest))))) := by
        rw [skipWs_ws_append _ _ (isWsList_nlInd (lvl + 1)), encStrL_cons,
          skipWs_cons_nonws _ _ (by rfl)]
      rw [hskip2]
      show (parseItems f (nlInd (lvl + 1) ++ (encStrL c ++ (encCellItems (lvl + 1) cs
          ++ (nlInd lvl ++ (']' :: rest)))))).map (fun vr => (J.arr vr.1, vr.2)) = _
      rw [parseItems_cells cs f (lvl + 1) lvl c rest
        (by simp only [List.length_cons] at hfuel; omega)]
      simp [rowToJ]

/-- Fuel needed to parse the encoded items of a row list. -/
def rowsItemsFuel : List (List String) → Nat
  | [] => 0
  | r :: rs => r.length + 3 + rowsItemsFuel rs

theorem parseItems_rows (rows : List (List String)) :
    ∀ (fuel lvl lvl2 : Nat) (first : List String) (rest : List Char),
      first.length + 2 + rowsItemsFuel rows ≤ fuel →
      parseItems fuel
          (nlInd lvl ++ (encRow lvl first ++ (encRowItems lvl rows ++ (nlInd lvl2 ++ (']' :: rest)))))
        = some ((first :: rows).map rowToJ, rest) := by
  induction rows with
  | nil =>
    intro fuel lvl lvl2 first rest hfuel
    cases fuel with
    | zero => exact absurd hfuel (by omega)
    | succ f =>
      have hv : parseValue (f + 1) (nlInd lvl ++ (encRow lvl first
            ++ (encRowItems lvl [] ++ (nlInd lvl2 ++ (']' :: rest)))))
          = some (rowToJ first, encRowItems lvl [] ++ (nlInd lvl2 ++ (']' :: rest))) :=
        parseValue_row first (f + 1) lvl (nlInd lvl) _ (isWsList_nlInd lvl) (by omega)
      have hr : skipWs (encRowItems lvl [] ++ (nlInd lvl2 ++ (']' :: rest))) = ']' :: rest := by
        rw [show encRowItems lvl [] = [] from rfl, List.nil_append,
          skipWs_ws_append _ _ (isWsList_nlInd lvl2), skipWs_cons_nonws _ _ (by rfl)]
      rw [parseItems_step_close f _ _ _ _ hv hr]
      simp
  | cons r2 rs2 ih =>
    intro fuel lvl lvl2 first rest hfuel
    cases fuel with
    | zero => exact absurd hfuel (by omega)
    | succ f =>
      have hv : parseValue (f + 1) (nlInd lvl ++ (encRow lvl first
            ++ (encRowItems lvl (r2 :: rs2) ++ (nlInd lvl2 ++ (']' :: rest)))))
          = some (rowToJ first, encRowItems lvl (r2 :: rs2) ++ (nlInd lvl2 ++ (']' :: rest))) :=
        parseValue_row first (f + 1) lvl (nlInd lvl) _ (isWsList_nlInd lvl) (by omega)
      have hshape : encRowItems lvl (r2 :: rs2) ++ (nlInd lvl2 ++ (']' :: rest))
          = ',' :: (nlInd lvl ++ (encRow lvl r2 ++ (encRowItems lvl rs2
              ++ (nlInd lvl2 ++ (']' :: rest))))) := by
        rw [encRowItems, List.cons_append]
        simp [List.append_assoc]
      have hr : skipWs (encRowItems lvl (r2 :: rs2) ++ (nlInd lvl2 ++ (']' :: rest)))
          = ',' :: (nlInd lvl ++ (encRow lvl r2 ++ (encRowItems lvl rs2
              ++ (nlInd lvl2 ++ (']' :: rest))))) := by
        rw [hshape, skipWs_cons_nonws _ _ (by rfl)]
      rw [parseItems_step_comma f _ _ _ _ hv hr,
        ih f lvl lvl2 r2 rest (by rw [rowsItemsFuel] at hfuel; omega)]
      simp

/-- Fuel needed to parse an encoded row list. -/
def rowsFuel (rows : List (List String)) : Nat := rowsItemsFuel rows + 1

theorem parseValue_rows (rows : List (List String)) (fuel lvl : Nat) (ws rest : List Char)
    (hws : IsWsList ws) (hfuel : rowsFuel rows ≤ fuel) :
    parseValue fuel (ws ++ (encRows lvl rows ++ rest)) = some (rowsToJ rows, rest) := by
  cases fuel with
  | zero => exact absurd hfuel (by rw [rowsFuel]; omega)
  | succ f =>
    cases rows with
    | nil =>
      have hskip : skipWs (ws ++ (encRows lvl [] ++ rest)) = '[' :: (']' :: rest) := by
        rw [show encRows lvl [] = ['[', ']'] from rfl, List.cons_append, List.cons_append,
          List.nil_append, skipWs_ws_append _ _ hws, skipWs_cons_nonws _ _ (by rfl)]
      rw [parseValue_open_bracket f _ _ hskip, skipWs_cons_nonws _ _ (by rfl)]
      simp [rowsToJ]
    | cons r rs =>
      have hshape : encRows lvl (r :: rs) ++ rest
          = '[' :: (nlInd (lvl + 1) ++ (encRow (lvl + 1) r ++ (encRowItems (lvl + 1) rs
              ++ (nlInd lvl ++ (']' :: rest))))) := by
        rw [encRows, List.cons_append]
        simp [List.append_assoc]
      have hskip : skipWs (ws ++ (encRows lvl (r :: rs) ++ rest))
          = '[' :: (nlInd (lvl + 1) ++ (encRow (lvl + 1) r ++ (encRowItems (lvl + 1) rs
              ++ (nlInd lvl ++ (']' :: rest))))) := by
        rw [hshape, skipWs_ws_append _ _ hws, skipWs_cons_nonws _ _ (by rfl)]
      rw [show ws ++ (encRows lvl (r :: rs) ++ rest)
          = ws ++ ('[' :: (nlInd (lvl + 1) ++ (encRow (lvl + 1) r ++ (encRowItems (lvl + 1) rs
              ++ (nlInd lvl ++ (']' :: rest)))))) from by rw [hshape]] at hskip ⊢
      rw [parseValue_open_bracket f _ _ hskip]
      obtain ⟨y, hy⟩ : ∃ y, encRow (lvl + 1) r ++ (encRowItems (lvl + 1) rs
            ++ (nlInd lvl ++ (']' :: rest))) = '[' :: y := by
        cases r with
        | nil => exact ⟨_, rfl⟩
        | cons c cs => exact ⟨_, rfl⟩
      have hskip2 : skipWs (nlInd (lvl + 1) ++ (encRow (lvl + 1) r ++ (encRowItems (lvl + 1) rs
            ++ (nlInd lvl ++ (']' :: rest)))))
          = '[' :: y := by
        rw [skipWs_ws_append _ _ (isWsList_nlInd (lvl + 1)), hy,
          skipWs_cons_nonws _ _ (by rfl)]
      rw [hskip2]
      show (parseItems f (nlInd (lvl + 1) ++ (encRow (lvl + 1) r ++ (encRowItems (lvl + 1) rs
          ++ (nlInd lvl ++ (']' :: rest)))))).map (fun vr => (J.arr vr.1, vr.2)) = _
      rw [parseItems_rows rs f (lvl + 1) lvl r rest
        (by rw [rowsFuel, rowsItemsFuel] at hfuel; omega)]
      simp [rowsToJ]

/-- A chunk of encoded characters that parses — after any all-whitespace
prefix and with any continuation — to a fixed JSON value, given enough fuel. -/
def ParsesTo (v : List Char) (jv : J) (n : Nat) : Prop :=
  ∀ g, n ≤ g → ∀ ws rest, IsWsList ws → parseValue g (ws ++ (v ++ rest)) = some (jv, rest)

theorem parsesTo_str (s : String) : ParsesTo (encStrL s) (J.str s) 1 := by
  intro g hg ws rest hws
  cases g with
  | zero => exact absurd hg (by omega)
  | succ g' => exact parseValue_str g' ws hws s rest

theorem parsesTo_rows (lvl : Nat) (rows : List (List String)) :
    ParsesTo (encRows lvl rows) (rowsToJ rows) (rowsFuel rows) :=
  fun g hg ws rest hws => parseValue_rows rows g lvl ws rest hws hg

/-- Key, encoded value, parsed value and fuel bound for one object member. -/
structure EntryDesc where
  key : String
  enc : List Char
  val : J
  fuelBound : Nat

/-- Fuel needed for the remaining members of an object. -/
def descFuel : List EntryDesc → Nat
  | [] => 0
  | d :: ds => d.fuelBound + 1 + descFuel ds

/-- The members after the first, encoded the way `json.dump` emits them. -/
def encMoreEntries (lvl : Nat) : List EntryDesc → List Char
  | [] => []
  | d :: ds => ',' :: (encEntry lvl d.key d.enc ++ encMoreEntries lvl ds)

/-- The member's encoded value parses to its recorded JSON value. -/
def ParsesDesc (d : EntryDesc) : Prop := ParsesTo d.enc d.val d.fuelBound

theorem parseEntries_step (fuel : Nat) (cs rest2 : List Char)
    (h : skipWs cs = '"' :: rest2) :
    parseEntries (fuel + 1) cs
      = (parseStringBody rest2).bind (fun kr =>
          match skipWs kr.2 with
          | ':' :: r2 =>
            (parseValue (fuel + 1) r2).bind (fun vr =>
              match skipWs vr.2 with
              | ',' :: r3 =>
                (parseEntries fuel r3).map (fun er => ((String.mk kr.1, vr.1) :: er.1, er.2))
              | '\x7d' :: r3 => some ([(String.mk kr.1, vr.1)], r3)
              | _ => none)
          | _ => none) := by
  rw [parseEntries_succ, h]
  simp

theorem parseEntries_one (fuel lvl : Nat) (k : String) (v : List Char) (jv : J) (n : Nat)
    (CONT : List Char) (hval : ParsesTo v jv n) (hn : n ≤ fuel + 1) :
    parseEntries (fuel + 1) (nlInd lvl ++ (encStrL k ++ (':' :: (' ' :: (v ++ CONT)))))
      = match skipWs CONT with
        | ',' :: r3 => (parseEntries fuel r3).map (fun er => ((k, jv) :: er.1, er.2))
        | '\x7d' :: r3 => some ([(k, jv)], r3)
        | _ => none := by
  have hskip : skipWs (nlInd lvl ++ (encStrL k ++ (':' :: (' ' :: (v ++ CONT)))))
      = '"' :: (escStr k.data ++ ('"' :: (':' :: (' ' :: (v ++ CONT))))) := by
    rw [skipWs_ws_append _ _ (isWsList_nlInd lvl), encStrL_cons,
      skipWs_cons_nonws _ _ (by rfl)]
  rw [parseEntries_step fuel _ _ hskip,
    parseStringBody_esc k.data (':' :: (' ' :: (v ++ CONT))), Option.some_bind,
    skipWs_cons_nonws _ _ (by rfl)]
  show (parseValue (fuel + 1) (' ' :: (v ++ CONT))).bind (fun vr =>
      match skipWs vr.2 with
      | ',' :: r3 =>
        (parseEntries fuel r3).map (fun er => ((String.mk k.data, vr.1) :: er.1, er.2))
      | '\x7d' :: r3 => some ([(String.mk k.data, vr.1)], r3)
      | _ => none) = _
  rw [show (' ' :: (v ++ CONT)) = [' '] ++ (v ++ CONT) from rfl,
    hval (fuel + 1) hn [' '] CONT isWsList_space, Option.some_bind]

theorem parseEntries_chain (ds : List EntryDesc) :
    ∀ (fuel lvl lvl2 : Nat) (k : String) (v : List Char) (jv : J) (n : Nat) (rest : List Char),
      ParsesTo v jv n →
      (∀ d ∈ ds, ParsesDesc d) →
      n + 1 + descFuel ds ≤ fuel →
      parseEntries fuel
          (nlInd lvl ++ (encStrL k ++ (':' :: (' ' :: (v ++ (encMoreEntries lvl ds
            ++ (nlInd lvl2 ++ ('\x7d' :: rest))))))))
        = some ((k, jv) :: ds.map (fun d => (d.key, d.val)), rest) := by
  induction ds with
  | nil =>
    intro fuel lvl lvl2 k v jv n rest hval hds hfuel
    cases fuel with
    | zero => exact absurd hfuel (by omega)
    | succ f =>
      rw [parseEntries_one f lvl k v jv n _ hval (by omega),
        show encMoreEntries lvl [] = [] from rfl, List.nil_append,
        skipWs_ws_append _ _ (isWsList_nlInd lvl2), skipWs_cons_nonws _ _ (by rfl)]
      simp
  | cons d ds2 ih =>
    intro fuel lvl lvl2 k v jv n rest hval hds hfuel
    cases fuel with
    | zero => exact absurd hfuel (by omega)
    | succ f =>
      rw [parseEntries_one f lvl k v jv n _ hval (by rw [descFuel] at hfuel; omega)]
      have hshape : encMoreEntries lvl (d :: ds2) ++ (nlInd lvl2 ++ ('\x7d' :: rest))
          = ',' :: (nlInd lvl ++ (encStrL d.key ++ (':' :: (' ' :: (d.enc
              ++ (encMoreEntries lvl ds2 ++ (nlInd lvl2 ++ ('\x7d' :: rest)))))))) := by
        rw [encMoreEntries, List.cons_append, encEntry]
        simp [List.append_assoc]
      have hsk : skipWs (encMoreEntries lvl (d :: ds2) ++ (nlInd lvl2 ++ ('\x7d' :: rest)))
          = ',' :: (nlInd lvl ++ (encStrL d.key ++ (':' :: (' ' :: (d.enc
              ++ (encMoreEntries lvl ds2 ++ (nlInd lvl2 ++ ('\x7d' :: rest)))))))) := by
        rw [hshape, skipWs_cons_nonws _ _ (by rfl)]
      rw [hsk]
      show (parseEntries f (nlInd lvl ++ (encStrL d.key ++ (':' :: (' ' :: (d.enc
          ++ (encMoreEntries lvl ds2 ++ (nlInd lvl2 ++ ('\x7d' :: rest))))))))).map
            (fun er => ((k, jv) :: er.1, er.2)) = _
      rw [ih f lvl lvl2 d.key d.enc d.val d.fuelBound rest
        (hds d (List.mem_cons_self d ds2))
        (fun d' hd' => hds d' (List.mem_cons_of_mem d hd'))
        (by rw [descFuel] at hfuel; omega)]
      simp

/-- The parsed form of one tender object. -/
def tenderToJ (t : Tender) : J :=
  J.obj [("id", J.str t.id), ("filename", J.str t.filename), ("path", J.str t.path),
         ("text", J.str t.text), ("table_rows", rowsToJ t.table_rows),
         ("summary", J.str t.summary), ("emd", J.str t.emd),
         ("due_date", J.str t.due_date), ("eligibility", J.str t.eligibility),
         ("uploaded_at", J.str t.uploaded_at)]

/-- Descriptors for the members of one tender object after `"id"`. -/
def tenderDescs (lvl : Nat) (t : Tender) : List EntryDesc :=
  [⟨"filename", encStrL t.filename, J.str t.filename, 1⟩,
   ⟨"path", encStrL t.path, J.str t.path, 1⟩,
   ⟨"text", encStrL t.text, J.str t.text, 1⟩,
   ⟨"table_rows", encRows lvl t.table_rows, rowsToJ t.table_rows, rowsFuel t.table_rows⟩,
   ⟨"summary", encStrL t.summary, J.str t.summary, 1⟩,
   ⟨"emd", encStrL t.emd, J.str t.emd, 1⟩,
   ⟨"due_date", encStrL t.due_date, J.str t.due_date, 1⟩,
   ⟨"eligibility", encStrL t.eligibility, J.str t.eligibility, 1⟩,
   ⟨"uploaded_at", encStrL t.uploaded_at, J.str t.uploaded_at, 1⟩]

/-- Fuel needed to parse one encoded tender object. -/
def tenderFuel (t : Tender) : Nat := rowsFuel t.table_rows + 20

theorem tenderDescs_parse (lvl : Nat) (t : Tender) :
    ∀ d ∈ tenderDescs lvl t, ParsesDesc d := by
  intro d hd
  simp only [tenderDescs, List.mem_cons, List.not_mem_nil, or_false] at hd
  rcases hd with rfl | rfl | rfl | rfl | rfl | rfl | rfl | rfl | rfl
  · exact parsesTo_str t.filename
  · exact parsesTo_str t.path
  · exact parsesTo_str t.text
  · exact parsesTo_rows lvl t.table_rows
  · exact parsesTo_str t.summary
  · exact parsesTo_str t.emd
  · exact parsesTo_str t.due_date
  · exact parsesTo_str t.eligibility
  · exact parsesTo_str t.uploaded_at

theorem encTender_shape (lvl : Nat) (t : Tender) (rest : List Char) :
    encTender lvl t ++ rest
      = '\x7b' :: (nlInd (lvl + 1) ++ (encStrL "id" ++ (':' :: (' ' :: (encStrL t.id
          ++ (encMoreEntries (lvl + 1) (tenderDescs (lvl + 1) t)
            ++ (nlInd lvl ++ ('\x7d' :: rest)))))))) := by
  rw [encTender]
  simp only [tenderDescs, encMoreEntries, encEntry]
  simp [List.append_assoc]

theorem parseValue_tender (t : Tender) (fuel lvl : Nat) (ws rest : List Char)
    (hws : IsWsList ws) (hfuel : tenderFuel t ≤ fuel) :
    parseValue fuel (ws ++ (encTender lvl t ++ rest)) = some (tenderToJ t, rest) := by
  cases fuel with
  | zero => exact absurd hfuel (by rw [tenderFuel]; omega)
  | succ f =>
    rw [encTender_shape lvl t rest]
    have hskip : skipWs (ws ++ ('\x7b' :: (nlInd (lvl + 1) ++ (encStrL "id"
          ++ (':' :: (' ' :: (encStrL t.id ++ (encMoreEntries (lvl + 1) (tenderDescs (lvl + 1) t)
            ++ (nlInd lvl ++ ('\x7d' :: rest))))))))))
        = '\x7b' :: (nlInd (lvl + 1) ++ (encStrL "id" ++ (':' :: (' ' :: (encStrL t.id
            ++ (encMoreEntries (lvl + 1) (tenderDescs (lvl + 1) t)
              ++ (nlInd lvl ++ ('\x7d' :: rest)))))))) := by
      rw [skipWs_ws_append _ _ hws, skipWs_cons_nonws _ _ (by rfl)]
    rw [parseValue_open_brace f _ _ hskip]
    have hskip2 : skipWs (nlInd (lvl + 1) ++ (encStrL "id" ++ (':' :: (' ' :: (encStrL t.id
          ++ (encMoreEntries (lvl + 1) (tenderDescs (lvl + 1) t)
            ++ (nlInd lvl ++ ('\x7d' :: rest))))))))
        = '"' :: (escStr "id".data ++ ('"' :: (':' :: (' ' :: (encStrL t.id
            ++ (encMoreEntries (lvl + 1) (tenderDescs (lvl + 1) t)
              ++ (nlInd lvl ++ ('\x7d' :: rest)))))))) := by
      rw [skipWs_ws_append _ _ (isWsList_nlInd (lvl + 1)), encStrL_cons,
        skipWs_cons_nonws _ _ (by rfl)]
    rw [hskip2]
    show (parseEntries f (nlInd (lvl + 1) ++ (encStrL "id" ++ (':' :: (' ' :: (encStrL t.id
        ++ (encMoreEntries (lvl + 1) (tenderDescs (lvl + 1) t)
          ++ (nlInd lvl ++ ('\x7d' :: rest))))))))).map
          (fun er => (J.obj er.1, er.2)) = _
    rw [parseEntries_chain (tenderDescs (lvl + 1) t) f (lvl + 1) lvl "id" (encStrL t.id)
      (J.str t.id) 1 rest (parsesTo_str t.id) (tenderDescs_parse (lvl + 1) t)
      (by
        rw [tenderFuel, rowsFuel] at hfuel
        simp only [tenderDescs, descFuel, rowsFuel]
        omega)]
    simp [tenderToJ, tenderDescs]

/-- Descriptors for the members of the top-level object after the first. -/
def mapDescs : List (String × Tender) → List EntryDesc
  | [] => []
  | (k, t) :: rest => ⟨k, encTender 1 t, tenderToJ t, tenderFuel t⟩ :: mapDescs rest

theorem encMapItems_eq (m : List (String × Tender)) :
    encMapItems m = encMoreEntries 1 (mapDescs m) := by
  induction m with
  | nil => rfl
  | cons kt rest ih =>
    obtain ⟨k, t⟩ := kt
    rw [encMapItems, mapDescs, encMoreEntries, ih]

theorem mapDescs_parse (m : List (String × Tender)) : ∀ d ∈ mapDescs m, ParsesDesc d := by
  induction m with
  | nil => intro d hd; cases hd
  | cons kt rest ih =>
    obtain ⟨k, t⟩ := kt
    intro d hd
    rcases List.mem_cons.mp hd with rfl | hd'
    · exact fun g hg ws r hws => parseValue_tender t g 1 ws r hws hg
    · exact ih d hd'

theorem mapDescs_map (m : List (String × Tender)) :
    (mapDescs m).map (fun d => (d.key, d.val)) = m.map (fun kt => (kt.1, tenderToJ kt.2)) := by
  induction m with
  | nil => rfl
  | cons kt rest ih =>
    obtain ⟨k, t⟩ := kt
    rw [mapDescs, List.map_cons, List.map_cons, ih]

/-- Fuel needed to parse the whole encoded snapshot. -/
def mapFuel : List (String × Tender) → Nat
  | [] => 1
  | (_, t) :: rest => tenderFuel t + descFuel (mapDescs rest) + 2

theorem parseValue_encTenders (m : List (String × Tender)) (fuel : Nat) (rest : List Char)
    (hfuel : mapFuel m ≤ fuel) :
    parseValue fuel (encTenders m ++ rest)
      = some (J.obj (m.map (fun kt => (kt.1, tenderToJ kt.2))), rest) := by
  cases fuel with
  | zero =>
    exact absurd hfuel (by cases m with
      | nil => rw [mapFuel]; omega
      | cons kt rest' => obtain ⟨k, t⟩ := kt; rw [mapFuel]; omega)
  | succ f =>
    cases m with
    | nil =>
      have hskip : skipWs (encTenders [] ++ rest) = '\x7b' :: ('\x7d' :: rest) := by
        rw [show encTenders [] = ['\x7b', '\x7d'] from rfl, List.cons_append,
          List.cons_append, List.nil_append, skipWs_cons_nonws _ _ (by rfl)]
      rw [parseValue_open_brace f _ _ hskip, skipWs_cons_nonws _ _ (by rfl)]
      simp
    | cons kt rest' =>
      obtain ⟨k, t⟩ := kt
      have hshape : encTenders ((k, t) :: rest') ++ rest
          = '\x7b' :: (nlInd 1 ++ (encStrL k ++ (':' :: (' ' :: (encTender 1 t
              ++ (encMoreEntries 1 (mapDescs rest') ++ (nlInd 0 ++ ('\x7d' :: rest)))))))) := by
        rw [encTenders, encEntry, encMapItems_eq]
        simp [List.append_assoc]
      rw [hshape]
      have hskip : skipWs ('\x7b' :: (nlInd 1 ++ (encStrL k ++ (':' :: (' ' :: (encTender 1 t
            ++ (encMoreEntries 1 (mapDescs rest') ++ (nlInd 0 ++ ('\x7d' :: rest)))))))))
          = '\x7b' :: (nlInd 1 ++ (encStrL k ++ (':' :: (' ' :: (encTender 1 t
            ++ (encMoreEntries 1 (mapDescs rest') ++ (nlInd 0 ++ ('\x7d' :: rest)))))))) :=
        skipWs_cons_nonws _ _ (by rfl)
      rw [parseValue_open_brace f _ _ hskip]
      have hskip2 : skipWs (nlInd 1 ++ (encStrL k ++ (':' :: (' ' :: (encTender 1 t
            ++ (encMoreEntries 1 (mapDescs rest') ++ (nlInd 0 ++ ('\x7d' :: rest))))))))
          = '"' :: (escStr k.data ++ ('"' :: (':' :: (' ' :: (encTender 1 t
            ++ (encMoreEntries 1 (mapDescs rest') ++ (nlInd 0 ++ ('\x7d' :: rest)))))))) := by
        rw [skipWs_ws_append _ _ (isWsList_nlInd 1), encStrL_cons,
          skipWs_cons_nonws _ _ (by rfl)]
      rw [hskip2]
      show (parseEntries f (nlInd 1 ++ (encStrL k ++ (':' :: (' ' :: (encTender 1 t
          ++ (encMoreEntries 1 (mapDescs rest') ++ (nlInd 0 ++ ('\x7d' :: rest))))))))).map
            (fun er => (J.obj er.1, er.2)) = _
      rw [parseEntries_chain (mapDescs rest') f 1 0 k (encTender 1 t) (tenderToJ t)
        (tenderFuel t) rest
        (fun g hg ws r hws => parseValue_tender t g 1 ws r hws hg)
        (mapDescs_parse rest')
        (by rw [mapFuel] at hfuel; omega)]
      rw [mapDescs_map rest']
      simp

theorem strsOfJ_map (row : List String) : strsOfJ (row.map J.str) = some row := by
  induction row with
  | nil => rfl
  | cons c cs ih => rw [List.map_cons, strsOfJ, ih]; rfl

theorem rowsOfJList_map (rows : List (List String)) :
    rowsOfJList (rows.map rowToJ) = some rows := by
  induction rows with
  | nil => rfl
  | cons r rs ih =>
    rw [List.map_cons, rowToJ, rowsOfJList, strsOfJ_map r, Option.some_bind, ih]
    rfl

theorem rowsOfJ_rowsToJ (rows : List (List String)) : rowsOfJ (rowsToJ rows) = some rows := by
  rw [rowsToJ, rowsOfJ, rowsOfJList_map]

theorem jToTender_tenderToJ (t : Tender) : jToTender (tenderToJ t) = some t := by
  show (rowsOfJ (rowsToJ t.table_rows)).map _ = some t
  rw [rowsOfJ_rowsToJ, Option.map_some']

theorem tendersOfEntries_map (m : List (String × Tender)) :
    tendersOfEntries (m.map (fun kt => (kt.1, tenderToJ kt.2))) = some m := by
  induction m with
  | nil => rfl
  | cons kt rest ih =>
    obtain ⟨k, t⟩ := kt
    rw [List.map_cons, tendersOfEntries, jToTender_tenderToJ, Option.some_bind, ih]
    rfl

theorem le_length_encStrL (s : String) : 2 ≤ (encStrL s).length := by
  rw [encStrL]
  simp [List.length_append]

theorem le_length_encCellItems (lvl : Nat) (cells : List String) :
    cells.length ≤ (encCellItems lvl cells).length := by
  induction cells with
  | nil => simp [encCellItems]
  | cons c cs ih =>
    rw [encCellItems]
    simp only [List.length_cons, List.length_append]
    omega

theorem le_length_encRow (lvl : Nat) (row : List String) :
    row.length + 2 ≤ (encRow lvl row).length := by
  cases row with
  | nil => simp [encRow]
  | cons c cs =>
    rw [encRow]
    have h1 := le_length_encStrL c
    have h2 := le_length_encCellItems (lvl + 1) cs
    simp only [List.length_cons, List.length_append]
    omega

theorem le_length_encRowItems (lvl : Nat) (rows : List (List String)) :
    rowsItemsFuel rows ≤ (encRowItems lvl rows).length := by
  induction rows with
  | nil => simp [encRowItems, rowsItemsFuel]
  | cons r rs ih =>
    rw [encRowItems, rowsItemsFuel]
    have h1 := le_length_encRow lvl r
    have h2 : 1 ≤ (nlInd lvl).length := by rw [nlInd]; simp
    simp only [List.length_cons, List.length_append]
    omega

theorem le_length_encRows (lvl : Nat) (rows : List (List String)) :
    rowsFuel rows ≤ (encRows lvl rows).length := by
  cases rows with
  | nil => simp [encRows, rowsFuel, rowsItemsFuel]
  | cons r rs =>
    rw [encRows, rowsFuel, rowsItemsFuel]
    have h1 := le_length_encRow (lvl + 1) r
    have h2 := le_length_encRowItems (lvl + 1) rs
    simp only [List.length_cons, List.length_append]
    omega

theorem le_length_encTender (t : Tender) (lvl : Nat) :
    tenderFuel t ≤ (encTender lvl t).length := by
  rw [encTender, tenderFuel]
  have h1 := le_length_encRows (lvl + 1) t.table_rows
  have h2 : ∀ (k : String) (v : List Char),
      v.length + 3 ≤ (encEntry (lvl + 1) k v).length := by
    intro k v
    rw [encEntry]
    have := le_length_encStrL k
    have : 1 ≤ (nlInd (lvl + 1)).length := by rw [nlInd]; simp
    simp only [List.length_append, List.length_cons]
    omega
  have h3 := h2 "table_rows" (encRows (lvl + 1) t.table_rows)
  have h4 := h2 "id" (encStrL t.id)
  have h5 := le_length_encStrL t.id
  have h6 : 1 ≤ (nlInd lvl).length := by rw [nlInd]; simp
  simp only [List.length_append, List.length_cons]
  omega

theorem le_length_encMapItems (m : List (String × Tender)) :
    descFuel (mapDescs m) ≤ (encMapItems m).length := by
  induction m with
  | nil => simp [encMapItems, mapDescs, descFuel]
  | cons kt rest ih =>
    obtain ⟨k, t⟩ := kt
    rw [encMapItems, mapDescs, descFuel]
    have h1 := le_length_encTender t 1
    have h2 : ∀ (k2 : String) (v : List Char),
        v.length + 3 ≤ (encEntry 1 k2 v).length := by
      intro k2 v
      rw [encEntry]
      have := le_length_encStrL k2
      have : 1 ≤ (nlInd 1).length := by rw [nlInd]; simp
      simp only [List.length_append, List.length_cons]
      omega
    have h3 := h2 k (encTender 1 t)
    simp only [List.length_cons, List.length_append]
    omega

theorem le_length_encTenders (m : List (String × Tender)) :
    mapFuel m ≤ (encTenders m).length + 1 := by
  cases m with
  | nil => simp [encTenders, mapFuel]
  | cons kt rest =>
    obtain ⟨k, t⟩ := kt
    rw [encTenders, mapFuel]
    have h1 := le_length_encTender t 1
    have h2 := le_length_encMapItems rest
    have h3 : ∀ (k2 : String) (v : List Char),
        v.length + 3 ≤ (encEntry 1 k2 v).length := by
      intro k2 v
      rw [encEntry]
      have := le_length_encStrL k2
      have : 1 ≤ (nlInd 1).length := by rw [nlInd]; simp
      simp only [List.length_append, List.length_cons]
      omega
    have h4 := h3 k (encTender 1 t)
    simp only [List.length_cons, List.length_append]
    omega

theorem load_save (m : List (String × Tender)) :
    load_tenders (save_tenders m) = some m := by
  rw [load_tenders, save_tenders]
  have hdata : (String.mk (encTenders m)).data = encTenders m := rfl
  rw [hdata]
  have hparse : parseValue ((encTenders m).length + 1) (encTenders m ++ [])
      = some (J.obj (m.map (fun kt => (kt.1, tenderToJ kt.2))), []) :=
    parseValue_encTenders m _ [] (le_length_encTenders m)
  rw [List.append_nil] at hparse
  rw [hparse]
  show (if skipWs [] = [] then
      tendersOfEntries (m.map (fun kt => (kt.1, tenderToJ kt.2))) else none) = some m
  rw [if_pos (by rfl), tendersOfEntries_map]

/-- C8: the store round-trips — after `tenders[file_id] = tender` a lookup of
that id returns exactly the inserted record, and the snapshot written by
`save_tenders` (`json.dump` with `ensure_ascii=False, indent=2`) parses back
(`json.load`) to the identical id → Tender mapping: serialization followed by
deserialization is lossless for all ten declared fields, for every valid
record. -/
theorem store_roundtrip :
    (∀ (m : List (String × Tender)) (t : Tender),
        getTender (putTender m t.id t) t.id = some t) ∧
    (∀ m : List (String × Tender), load_tenders (save_tenders m) = some m) :=
  ⟨fun m t => getTender_putTender m t, fun m => load_save m⟩
